import Mathlib

/-!
Verification of the balloons-policy topology-aware CPU allocator
(`cputree.go`): the CPU topology tree, the attributed slice, the
allocate/release comparators, the `SplitLevel` transformation and the
six-stage `ResizeCpus` resizer pipeline.

Modelling conventions, chosen once for the whole file:

* `cpuset.CPUSet` is a `Finset ℕ`; `List()` is ascending enumeration
  (`Finset.sort (· ≤ ·)`), `Size()` is `Finset.card`.
* Go's `CPUSet.UnsortedList()` iterates a hash map, so its order is
  unspecified at runtime.  Every definition that consumes an unsorted
  listing takes an explicit enumeration oracle
  `σ : Finset ℕ → List ℕ`; a run of the Go program corresponds to some
  oracle that enumerates each set exactly once (`validUnsorted`).
* `sort.Slice(x, less)` guarantees only that the result is a
  permutation of `x` that is non-decreasing with respect to `less`.
  It is modelled as `goSortSlice less = List.insertionSort (fun a b => less b a = false)`,
  one such permutation; the unspecified order of `less`-ties is
  reachable through the oracle (the slices being sorted come from
  `UnsortedList`), while slices with deterministic construction order
  (the attributed slice) are sorted deterministically, as Go's fixed
  sorting algorithm does.
* The `deviceUpdateOnEveryCpu` callback is external code; the model
  records whether it is set and the chronological list of CPU sets it
  is invoked with (the `calls` field of `resizeResult`), and gives it
  no other semantics.
* `topologyHintCpus` memoizes provider answers in
  `cacheCloseCpuSets`; within one resize call every lookup of a device
  path returns the same list, so the cache is modelled as the
  already-resolved total mapping `String → List CpuSet`.
* Go `int` is modelled as `ℤ` where values may be negative (`delta`),
  and as `ℕ` for cardinalities.  The one observable `int64` overflow in
  the pipeline is unary negation of `delta`: `goNeg` wraps
  `-MinInt64` back to `MinInt64` exactly as two's complement does, and
  a negative index into a slice panics.  The `uint64` hint scores of
  `resizeCpusWithDevices` shift with `goShl1` (0 for shift counts ≥ 64)
  and accumulate modulo `2 ^ 64`.
* `SplitLevel` iterates the `classCpus` map in unspecified order; the
  model takes that order as an explicit parameter (`classIds`), valid
  when it is a permutation of the canonical key list `classIdsOf`.
  `NewAllocator` passes the order through, so allocators built from
  the same tree and options may differ in it.
* The model does not let the `deviceUpdateOnEveryCpu` callback mutate
  the hint cache mid-call (`virtDevCpusets` is external state); within
  one call the cache is the fixed mapping above.  No claim below
  depends on hint values across callback invocations.
* A Go panic (slice index out of range) is modelled as an error value
  (`resizeError.indexPanic`); a potentially unbounded `for` loop gets
  a fuel parameter whose exhaustion is the error value
  `resizeError.fuelExhausted` (such a run never terminates in Go).
-/

set_option maxRecDepth 10000

abbrev CpuSet := Finset ℕ

/-- Ascending enumeration of a CPU set: `cpuset.CPUSet.List()`.
(Defined through a structurally recursive sort so that concrete runs
reduce definitionally.) -/
def CpuSet.list (s : CpuSet) : List ℕ :=
  Quotient.liftOn s.val (List.insertionSort (· ≤ ·))
    (fun a b h => List.eq_of_perm_of_sorted
      (((List.perm_insertionSort _ a).trans h).trans
        (List.perm_insertionSort _ b).symm)
      (List.sorted_insertionSort _ a) (List.sorted_insertionSort _ b))

/-- An enumeration oracle is valid when it enumerates each set exactly
once, in some order: the contract of `cpuset.CPUSet.UnsortedList()`. -/
def validUnsorted (σ : CpuSet → List ℕ) : Prop :=
  ∀ s : CpuSet, (σ s).Perm (CpuSet.list s)

/-- The canonical oracle: unsorted enumeration happens to be sorted. -/
def sortedUnsorted : CpuSet → List ℕ := fun s => CpuSet.list s

/-- Model of Go's `sort.Slice(x, less)`: some permutation of `x` that is
non-decreasing with respect to `less`. -/
def goSortSlice {α : Type} (less : α → α → Bool) (xs : List α) : List α :=
  xs.insertionSort (fun a b => less b a = false)

/-- Modelled from the spec: the topology level enum `CPUTopologyLevel`
(`System < Package < Die < Numa < L2Cache < Core < Thread`) is defined
outside the provided sources; only equality of levels is used here. -/
inductive CPUTopologyLevel where
  | system | package | die | numa | l2cache | core | thread
deriving DecidableEq

/-- `cpuTreeNode`: a node in the CPU tree.  Parent pointers are
implicit (a node owns its children); `sys` is not needed by the
verified operations. -/
inductive cpuTreeNode where
  | node (name : String) (level : CPUTopologyLevel) (cpus : CpuSet)
         (children : List cpuTreeNode)

def cpuTreeNode.name : cpuTreeNode → String
  | .node n _ _ _ => n

def cpuTreeNode.level : cpuTreeNode → CPUTopologyLevel
  | .node _ l _ _ => l

def cpuTreeNode.cpus : cpuTreeNode → CpuSet
  | .node _ _ c _ => c

def cpuTreeNode.children : cpuTreeNode → List cpuTreeNode
  | .node _ _ _ ch => ch

/-- `cpuTreeNodeAttributes`: the flattened record of a tree node used by
the comparison phase. -/
structure cpuTreeNodeAttributes where
  t                : cpuTreeNode
  depth            : ℕ
  currentCpus      : CpuSet
  freeCpus         : CpuSet
  currentCpuCount  : ℕ
  currentCpuCounts : List ℕ
  freeCpuCount     : ℕ
  freeCpuCounts    : List ℕ

theorem cpuTreeNode.sizeOf_children_lt (t : cpuTreeNode) :
    sizeOf t.children < sizeOf t := by
  cases t with
  | node n l c ch => simp [cpuTreeNode.children]

mutual

/-- `cpuTreeNode.toAttributedSlice` helper: pre-order emission of
attributed records; a node rejected by the filter is skipped together
with its whole subtree. -/
def toAttributedSliceGo (currentCpus freeCpus : CpuSet)
    (filter : cpuTreeNodeAttributes → Bool) (t : cpuTreeNode) (depth : ℕ)
    (currentCpuCounts freeCpuCounts : List ℕ) : List cpuTreeNodeAttributes :=
  match t with
  | .node nm lv cpus children =>
    let currentCpusHere := cpus ∩ currentCpus
    let freeCpusHere := cpus ∩ freeCpus
    let currentCpuCountHere := currentCpusHere.card
    let currentCpuCountsHere := currentCpuCounts ++ [currentCpuCountHere]
    let freeCpuCountHere := freeCpusHere.card
    let freeCpuCountsHere := freeCpuCounts ++ [freeCpuCountHere]
    let tna : cpuTreeNodeAttributes :=
      { t := .node nm lv cpus children, depth := depth
        currentCpus := currentCpusHere, freeCpus := freeCpusHere
        currentCpuCount := currentCpuCountHere
        currentCpuCounts := currentCpuCountsHere
        freeCpuCount := freeCpuCountHere
        freeCpuCounts := freeCpuCountsHere }
    if filter tna then
      tna :: toAttributedSliceListGo currentCpus freeCpus filter children
               (depth + 1) currentCpuCountsHere freeCpuCountsHere
    else []

def toAttributedSliceListGo (currentCpus freeCpus : CpuSet)
    (filter : cpuTreeNodeAttributes → Bool) (ts : List cpuTreeNode) (depth : ℕ)
    (currentCpuCounts freeCpuCounts : List ℕ) : List cpuTreeNodeAttributes :=
  match ts with
  | [] => []
  | c :: cs =>
      toAttributedSliceGo currentCpus freeCpus filter c depth currentCpuCounts freeCpuCounts
      ++ toAttributedSliceListGo currentCpus freeCpus filter cs depth currentCpuCounts freeCpuCounts

end

/-- `cpuTreeNode.ToAttributedSlice`. -/
def ToAttributedSlice (t : cpuTreeNode) (currentCpus freeCpus : CpuSet)
    (filter : cpuTreeNodeAttributes → Bool) : List cpuTreeNodeAttributes :=
  toAttributedSliceGo currentCpus freeCpus filter t 0 [] []

/-- Lexicographic comparison of character lists by code point, the
recursion underlying Go's `<` on (ASCII) strings. -/
def listCharLt : List Char → List Char → Bool
  | [], [] => false
  | [], _ :: _ => true
  | _ :: _, [] => false
  | c :: cs, d :: ds =>
      if c.val < d.val then true
      else if d.val < c.val then false
      else listCharLt cs ds

/-- Go's `<` on strings (byte-lexicographic; identical to code-point
order on the ASCII names this code builds).  Provably equal to Lean's
`String` order (`goStringLt_iff_lt` below), but defined by structural
recursion so concrete runs reduce. -/
def goStringLt (a b : String) : Bool := listCharLt a.data b.data

/-- The Go comparator loops scan the first record's count vector and
index the second one at the same position; the first differing pair of
counts decides.  Reaching past the end of the second list would panic
in Go; that situation is modelled as falling through to the next
comparison key (it is unreachable between records of equal depth, whose
vectors have equal length `depth + 1`). -/
def firstDiff : List ℕ → List ℕ → Option (ℕ × ℕ)
  | [], _ => none
  | _ :: _, [] => none
  | a :: as, b :: bs => if a ≠ b then some (a, b) else firstDiff as bs

/-- `cpuTreeAllocator.sorterAllocate` as an is-less-than predicate on two
attributed records (the Go closure reads them from the slice being
sorted); `topologyBalancing` is the option the closure captures. -/
def sorterAllocate (topologyBalancing : Bool)
    (a b : cpuTreeNodeAttributes) : Bool :=
  if a.depth ≠ b.depth then
    decide (a.depth > b.depth)
  else
    match firstDiff a.currentCpuCounts b.currentCpuCounts with
    | some (x, y) => decide (x > y)
    | none =>
      match firstDiff a.freeCpuCounts b.freeCpuCounts with
      | some (x, y) =>
          if topologyBalancing then decide (x > y) else decide (x < y)
      | none => goStringLt a.t.name b.t.name

/-- `cpuTreeAllocator.sorterRelease`; note that the source's two
`topologyBalancing` branches for the free-count key are identical, and
are kept as written. -/
def sorterRelease (topologyBalancing : Bool)
    (a b : cpuTreeNodeAttributes) : Bool :=
  if a.depth ≠ b.depth then
    decide (a.depth > b.depth)
  else
    match firstDiff a.currentCpuCounts b.currentCpuCounts with
    | some (x, y) => decide (x < y)
    | none =>
      match firstDiff a.freeCpuCounts b.freeCpuCounts with
      | some (x, y) =>
          if topologyBalancing then decide (x < y) else decide (x < y)
      | none => goStringLt b.t.name a.t.name

/-- `cpuTreeAllocatorOptions`.  The callback `deviceUpdateOnEveryCpu`
is external to this code; only its presence is modelled (see the file
header).  `virtDevCpusets` is subsumed by the allocator's cache field. -/
structure cpuTreeAllocatorOptions where
  topologyBalancing : Bool
  preferSpreadOnPhysicalCores : Bool
  preferCloseToDevices : List String
  preferFarFromDevices : List String
  deviceUpdateOnEveryCpu : Bool
deriving DecidableEq

/-- `cpuTreeAllocator`: the (possibly split) root plus options and the
resolved device-hint cache (see the file header on memoization). -/
structure cpuTreeAllocator where
  options : cpuTreeAllocatorOptions
  root : cpuTreeNode
  cacheCloseCpuSets : String → List CpuSet

/-- `cpuTreeAllocator.topologyHintCpus`: the per-call view of the cached
topology hints for a device path. -/
def topologyHintCpus (ta : cpuTreeAllocator) (dev : String) : List CpuSet :=
  ta.cacheCloseCpuSets dev

/-- The prioritized hint-set list built at the top of
`resizeCpusWithDevices` (close devices first, then one singleton list
`[free \ far]` per hint set of each far device). -/
def allCloseCpuSets (ta : cpuTreeAllocator) (freeCpus : CpuSet) : List (List CpuSet) :=
  (ta.options.preferCloseToDevices.filterMap fun devPath =>
    let closeCpuSets := topologyHintCpus ta devPath
    if closeCpuSets.length > 0 then some closeCpuSets else none)
  ++
  (ta.options.preferFarFromDevices.flatMap fun devPath =>
    (topologyHintCpus ta devPath).map fun farCpuSet => [freeCpus \ farCpuSet])

/-- The error outcomes of the resizer pipeline, one constructor per
`error` produced in the source (plus the two modelling artifacts for a
Go panic and a non-terminating loop, see the file header). -/
inductive resizeError where
  | noNextResizer        -- nextCpuResizer called with an empty resizer slice
  | notEnoughFreeCpus    -- resizeCpusOnlyIfNecessary, delta > 0
  | notEnoughCurrentCpus -- resizeCpusOnlyIfNecessary, delta < 0
  | notEnoughFreeLocal   -- resizeCpusMaxLocalSet, empty filtered slice
  | singleAllocFailed    -- resizeCpusOneAtATime, sub-query size ≠ 1 (grow)
  | doubleAdd            -- resizeCpusOneAtATime, repeated CPU (grow)
  | singleFreeFailed     -- resizeCpusOneAtATime, sub-query size ≠ 1 (shrink)
  | doubleFree           -- resizeCpusOneAtATime, repeated CPU (shrink)
  | indexPanic           -- Go slice index out of range
  | fuelExhausted        -- modelling artifact: the Go loop would not terminate
deriving DecidableEq

/-- The instrumented result of a resizer: the two returned CPU sets and
the returned error model the source's return values; `calls` records
the arguments of every `deviceUpdateOnEveryCpu` invocation in
chronological order, and `consultedEmpty` records whether any
`nextCpuResizer` call during evaluation received an empty resizer
slice (both are instrumentation, not source data). -/
structure resizeResult where
  addFrom : CpuSet
  removeFrom : CpuSet
  err : Option resizeError
  calls : List CpuSet
  consultedEmpty : Bool
deriving DecidableEq

/-- The enumeration of the pipeline stages wired up by `ResizeCpus`. -/
inductive cpuResizer where
  | onlyIfNecessary | withDynamicDeviceHints | withDevices
  | oneAtATime | maxLocalSet | now
deriving DecidableEq

/-- The inner allocation loop of `resizeCpusWithDynamicDeviceHints`
(one CPU is committed per round; the loop body cannot be bounded
syntactically, so it runs on fuel — see the file header).  The
parameters mirror the Go loop state: chosen CPUs so far, the latest
candidate pool and removal pool, and the working current/free sets. -/
def dynHintsLoop (next : CpuSet → CpuSet → ℤ → resizeResult) (delta : ℤ) :
    ℕ → CpuSet → CpuSet → CpuSet → CpuSet → CpuSet → List CpuSet → Bool → resizeResult
  | 0, addedCpus, _, removeFrom, _, _, calls, ce =>
      ⟨addedCpus, removeFrom, some .fuelExhausted, calls, ce⟩
  | fuel + 1, addedCpus, addFrom, removeFrom, currentCpus, freeCpus, calls, ce =>
      match CpuSet.list addFrom with
      | [] => ⟨addedCpus, removeFrom, some .indexPanic, calls, ce⟩
      | addedCpu :: _ =>
        let addedCpus' := addedCpus ∪ {addedCpu}
        if delta ≤ (addedCpus'.card : ℤ) then
          ⟨addedCpus' ∪ addFrom, removeFrom, none, calls, ce⟩
        else
          let currentCpus' := currentCpus ∪ {addedCpu}
          let freeCpus' := freeCpus \ currentCpus'
          let calls' := calls ++ [currentCpus']
          let res := next currentCpus' freeCpus' 1
          let calls'' := calls' ++ res.calls
          let ce' := ce || res.consultedEmpty
          if res.err.isSome ∨ res.addFrom.card < 1 then
            ⟨addedCpus', res.removeFrom, res.err, calls'', ce'⟩
          else
            dynHintsLoop next delta fuel addedCpus' res.addFrom res.removeFrom
              currentCpus' freeCpus' calls'' ce'

/-- The grow loop of `resizeCpusOneAtATime`: `delta` single-CPU
sub-queries; `ssAdd`/`ssRemove` are the superset pools returned with an
internal error.  `left` counts the remaining rounds down from `delta`. -/
def oneAtATimeAddLoop (next : CpuSet → CpuSet → ℤ → resizeResult)
    (ssAdd ssRemove : CpuSet) (delta : ℕ) :
    ℕ → CpuSet → CpuSet → CpuSet → List CpuSet → Bool → resizeResult
  | 0, addFrom, _, _, calls, ce => ⟨addFrom, ssRemove, none, calls, ce⟩
  | left + 1, addFrom, currentCpus, freeCpus, calls, ce =>
      let res := next currentCpus freeCpus 1
      let calls' := calls ++ res.calls
      let ce' := ce || res.consultedEmpty
      if res.err.isSome then ⟨ssAdd, ssRemove, res.err, calls', ce'⟩
      else if res.addFrom.card ≠ 1 then
        ⟨ssAdd, ssRemove, some .singleAllocFailed, calls', ce'⟩
      else
        let addFrom' := addFrom ∪ res.addFrom
        if addFrom'.card ≠ delta - left then
          ⟨ssAdd, ssRemove, some .doubleAdd, calls', ce'⟩
        else
          oneAtATimeAddLoop next ssAdd ssRemove delta left addFrom'
            (currentCpus ∪ res.addFrom) (freeCpus \ res.addFrom) calls' ce'

/-- The shrink loop of `resizeCpusOneAtATime`: `-delta` single-CPU
removals; the grow pool stays empty.  `left` counts the remaining
rounds down from `negDelta = -delta`. -/
def oneAtATimeRemoveLoop (next : CpuSet → CpuSet → ℤ → resizeResult)
    (negDelta : ℕ) :
    ℕ → CpuSet → CpuSet → CpuSet → List CpuSet → Bool → resizeResult
  | 0, removeFrom, _, _, calls, ce => ⟨∅, removeFrom, none, calls, ce⟩
  | left + 1, removeFrom, currentCpus, freeCpus, calls, ce =>
      let res := next currentCpus freeCpus (-1)
      let calls' := calls ++ res.calls
      let ce' := ce || res.consultedEmpty
      if res.err.isSome then ⟨∅, removeFrom, res.err, calls', ce'⟩
      else if res.removeFrom.card ≠ 1 then
        ⟨∅, removeFrom, some .singleFreeFailed, calls', ce'⟩
      else if (removeFrom ∪ res.removeFrom).card ≠ negDelta - left then
        ⟨∅, removeFrom, some .doubleFree, calls', ce'⟩
      else
        oneAtATimeRemoveLoop next negDelta left (removeFrom ∪ res.removeFrom)
          (currentCpus \ res.removeFrom) (freeCpus ∪ res.removeFrom) calls' ce'

/-- One `+=` step on the hint-score map of `resizeCpusWithDevices`.
The map values are Go `uint64`, so the addition wraps modulo `2 ^ 64`. -/
def bumpHints (inc : ℕ) (m : ℕ → ℕ) (c : ℕ) : ℕ → ℕ :=
  fun x => if x = c then (m x + inc) % 2 ^ 64 else m x

/-- The Go expression `1 << s` evaluated in `uint64`: a shift count of
64 or more yields 0. -/
def goShl1 (s : ℕ) : ℕ :=
  if s < 64 then 2 ^ s else 0

/-- The hint-score map `currentCpuHints` of `resizeCpusWithDevices`
(shrink path): every hint set of priority `k` containing a CPU of
`currentCpus` adds `1 <<ᵤ₆₄ (len - 1 - k)` to that CPU's `uint64`
score (the shift is 0 once `len - 1 - k ≥ 64`, and the sum wraps
modulo `2 ^ 64`).  The inner iteration order comes from
`UnsortedList`, hence the oracle. -/
def buildHints (σ : CpuSet → List ℕ) (all : List (List CpuSet))
    (currentCpus : CpuSet) : ℕ → ℕ :=
  all.enum.foldl
    (fun m kcs =>
      kcs.2.foldl
        (fun m cpus =>
          (σ (cpus ∩ currentCpus)).foldl
            (bumpHints (goShl1 (all.length - 1 - kcs.1))) m)
        m)
    (fun _ => 0)

/-- The classification loop of the shrink path of
`resizeCpusWithDevices`: walk the score-sorted CPU list while the score
is at most `maxHints`; scores strictly below go to `currentToFreeForSure`
(first component), scores equal to `maxHints` go to `currentToFreeMaybe`
(second); the loop stops at the first larger score. -/
def forSureMaybeSplit (score : ℕ → ℕ) (maxHints : ℕ) : List ℕ → CpuSet × CpuSet
  | [] => (∅, ∅)
  | c :: rest =>
      if score c ≤ maxHints then
        let sm := forSureMaybeSplit score maxHints rest
        if score c < maxHints then (insert c sm.1, sm.2) else (sm.1, insert c sm.2)
      else (∅, ∅)

/-- The eligibility filter of `resizeCpusMaxLocalSet`: keep only nodes
whose local free (respectively current) CPUs can satisfy the delta. -/
def maxLocalFilter (delta : ℤ) (tna : cpuTreeNodeAttributes) : Bool :=
  if 0 < delta ∧ (tna.freeCpuCount : ℤ) - delta < 0 then false
  else if delta < 0 ∧ (tna.currentCpuCount : ℤ) + delta < 0 then false
  else true

/-- The final loop of the shrink path of `resizeCpusWithDevices`: top up
`currentToFreeForSure` from the next resizer's answer until it holds
`-delta` CPUs. -/
def fillLoop (negDelta : ℕ) : CpuSet → List ℕ → CpuSet
  | forSure, [] => forSure
  | forSure, c :: rest =>
      if negDelta ≤ forSure.card then forSure
      else fillLoop negDelta (insert c forSure) rest

/-- Go's `math.MinInt64`, the one `int` value whose negation overflows. -/
def goMinInt : ℤ := -(2 ^ 63)

/-- Unary minus on a Go `int` (`int64`): exact negation except that
`-MinInt64` wraps back to `MinInt64` in two's complement. -/
def goNeg (d : ℤ) : ℤ :=
  if d = goMinInt then goMinInt else -d

/-- `cpuTreeAllocator.nextCpuResizer` together with all six resizer
bodies (`resizeCpusOnlyIfNecessary`, `resizeCpusWithDynamicDeviceHints`,
`resizeCpusWithDevices`, `resizeCpusOneAtATime`, `resizeCpusMaxLocalSet`,
`resizeCpusNow`), dispatched on the head of the remaining resizer
slice exactly as the Go closures do. -/
def nextCpuResizer (σ : CpuSet → List ℕ) (ta : cpuTreeAllocator) :
    List cpuResizer → CpuSet → CpuSet → ℤ → resizeResult
  | [], currentCpus, freeCpus, _ =>
      ⟨freeCpus, currentCpus, some .noNextResizer, [], true⟩
  | .now :: _, currentCpus, freeCpus, _ =>
      ⟨freeCpus, currentCpus, none, [], false⟩
  | .onlyIfNecessary :: rest, currentCpus, freeCpus, delta =>
      if delta = 0 then ⟨∅, ∅, none, [], false⟩
      else if 0 < delta then
        if (freeCpus.card : ℤ) < delta then
          ⟨freeCpus, ∅, some .notEnoughFreeCpus, [], false⟩
        else if (freeCpus.card : ℤ) = delta then ⟨freeCpus, ∅, none, [], false⟩
        else nextCpuResizer σ ta rest currentCpus freeCpus delta
      else
        if (currentCpus.card : ℤ) < goNeg delta then
          ⟨∅, currentCpus, some .notEnoughCurrentCpus, [], false⟩
        else if (currentCpus.card : ℤ) = goNeg delta then ⟨∅, currentCpus, none, [], false⟩
        else nextCpuResizer σ ta rest currentCpus freeCpus delta
  | .withDynamicDeviceHints :: rest, currentCpus, freeCpus, delta =>
      if ta.options.deviceUpdateOnEveryCpu = false then
        nextCpuResizer σ ta rest currentCpus freeCpus delta
      else if delta ≤ 0 then
        let res := nextCpuResizer σ ta rest currentCpus freeCpus delta
        { res with calls := currentCpus :: res.calls }
      else
        let res := nextCpuResizer σ ta rest currentCpus freeCpus delta
        if res.err.isSome ∨ (res.addFrom.card : ℤ) < delta then
          { res with calls := currentCpus :: res.calls }
        else
          dynHintsLoop (fun c f d => nextCpuResizer σ ta rest c f d) delta
            delta.toNat ∅ res.addFrom res.removeFrom currentCpus freeCpus
            (currentCpus :: res.calls) res.consultedEmpty
  | .withDevices :: rest, currentCpus, freeCpus, delta =>
      let all := allCloseCpuSets ta freeCpus
      if all.length = 0 then nextCpuResizer σ ta rest currentCpus freeCpus delta
      else if 0 < delta then
        let remainingFreeCpus := (all.flatMap id).foldl
          (fun rem cpus =>
            if delta ≤ ((rem ∩ cpus).card : ℤ) then rem ∩ cpus else rem)
          freeCpus
        nextCpuResizer σ ta rest currentCpus remainingFreeCpus delta
      else if delta < 0 then
        let score := buildHints σ all currentCpus
        let leastHintedCpus :=
          goSortSlice (fun a b => decide (score a < score b)) (σ currentCpus)
        if goNeg delta < 0 then ⟨freeCpus, currentCpus, some .indexPanic, [], false⟩
        else
        match leastHintedCpus.get? (goNeg delta).toNat with
        | none => ⟨freeCpus, currentCpus, some .indexPanic, [], false⟩
        | some pivot =>
          let maxHints := score pivot
          let sm := forSureMaybeSplit score maxHints leastHintedCpus
          let remainingDelta := delta + (sm.1.card : ℤ)
          let res := nextCpuResizer σ ta rest sm.2 freeCpus remainingDelta
          let filled := fillLoop (goNeg delta).toNat sm.1 (σ res.removeFrom)
          ⟨freeCpus, filled, res.err, res.calls, res.consultedEmpty⟩
      else ⟨freeCpus, currentCpus, none, [], false⟩
  | .oneAtATime :: rest, currentCpus, freeCpus, delta =>
      if 0 < delta then
        let res := nextCpuResizer σ ta rest currentCpus freeCpus delta
        if ta.options.preferSpreadOnPhysicalCores = false
            ∨ (res.addFrom.card : ℤ) = delta then res
        else
          oneAtATimeAddLoop (fun c f d => nextCpuResizer σ ta rest c f d)
            res.addFrom res.removeFrom delta.toNat delta.toNat ∅
            currentCpus freeCpus res.calls res.consultedEmpty
      else
        oneAtATimeRemoveLoop (fun c f d => nextCpuResizer σ ta rest c f d)
          (goNeg delta).toNat (goNeg delta).toNat ∅ currentCpus freeCpus [] false
  | .maxLocalSet :: rest, currentCpus, freeCpus, delta =>
      let tnas := ToAttributedSlice ta.root currentCpus freeCpus (maxLocalFilter delta)
      let sorted :=
        if 0 < delta then goSortSlice (sorterAllocate ta.options.topologyBalancing) tnas
        else goSortSlice (sorterRelease ta.options.topologyBalancing) tnas
      match sorted with
      | [] => ⟨freeCpus, currentCpus, some .notEnoughFreeLocal, [], false⟩
      | best :: _ => nextCpuResizer σ ta rest best.currentCpus best.freeCpus delta

/-- The resizer chain wired up by `cpuTreeAllocator.ResizeCpus`. -/
def resizersChain : List cpuResizer :=
  [.onlyIfNecessary, .withDynamicDeviceHints, .withDevices,
   .oneAtATime, .maxLocalSet, .now]

/-- `cpuTreeAllocator.ResizeCpus`. -/
def ResizeCpus (σ : CpuSet → List ℕ) (ta : cpuTreeAllocator)
    (currentCpus freeCpus : CpuSet) (delta : ℤ) : resizeResult :=
  nextCpuResizer σ ta resizersChain currentCpus freeCpus delta

/-- The key set of the `classCpus` map built by `SplitLevel`, in
first-appearance order over ascending CPUs.  Go iterates the map in
unspecified order; a run of the program corresponds to some permutation
of this list, which `SplitLevel` below takes as a parameter. -/
def classIdsOf (rootCpus : CpuSet) (classifier : ℕ → ℤ) : List ℤ :=
  ((CpuSet.list rootCpus).map classifier).dedup

mutual

/-- The pruning walk of `SplitLevel` below the root of a duplicated
subtree: each node's `cpus` is intersected with the class mask; a node
whose intersection is empty is detached from its parent's child list
(`cn.parent.children = newSiblings` in the source) and its subtree is
skipped. -/
def pruneChild (mask : CpuSet) (t : cpuTreeNode) : Option cpuTreeNode :=
  match t with
  | .node nm lv cpus children =>
    let cpusMasked := cpus ∩ mask
    if cpusMasked.card = 0 then none
    else some (.node nm lv cpusMasked (pruneChildren mask children))

def pruneChildren (mask : CpuSet) (ts : List cpuTreeNode) : List cpuTreeNode :=
  match ts with
  | [] => []
  | c :: cs =>
    match pruneChild mask c with
    | none => pruneChildren mask cs
    | some c' => c' :: pruneChildren mask cs

end

/-- The duplication of one original child under a synthetic class node
(`newChild := child.CopyTree()` followed by the masking walk and the
unconditional `newNode.AddChild(newChild)`).  When the duplicated
subtree's own root is masked to the empty set, the walk's detachment is
a no-op — the root is not yet in any child list (its `AddChild` happens
after the walk), so the source keeps it, with empty `cpus` and its
descendants unvisited (the walk answered `WalkSkipChildren`). -/
def maskedCopy (mask : CpuSet) (t : cpuTreeNode) : cpuTreeNode :=
  match t with
  | .node nm lv cpus children =>
    let cpusMasked := cpus ∩ mask
    if cpusMasked.card = 0 then .node nm lv cpusMasked children
    else .node nm lv cpusMasked (pruneChildren mask children)

/-- The synthetic per-class children of one node at the split level:
one node per class, holding the masked duplicates of all original
children. -/
def splitClassChildren (classIds : List ℤ) (rootCpus : CpuSet)
    (classifier : ℕ → ℤ)
    (nm : String) (lv : CPUTopologyLevel) (cpus : CpuSet)
    (children : List cpuTreeNode) : List cpuTreeNode :=
  classIds.map fun class_ =>
    let cpuMask := rootCpus.filter (fun c => classifier c = class_)
    .node (nm ++ "class" ++ toString class_) lv (cpus ∩ cpuMask)
      (children.map (maskedCopy cpuMask))

mutual

/-- The `DepthFirstWalk` of `SplitLevel` over the copied tree: nodes at
the split level have their children replaced by synthetic class nodes
(and the walk skips the new children); other nodes recurse. -/
def splitLevelGo (classIds : List ℤ) (rootCpus : CpuSet) (classifier : ℕ → ℤ)
    (splitLevel : CPUTopologyLevel) (t : cpuTreeNode) : cpuTreeNode :=
  match t with
  | .node nm lv cpus children =>
    if lv = splitLevel then
      .node nm lv cpus
        (splitClassChildren classIds rootCpus classifier nm lv cpus children)
    else
      .node nm lv cpus (splitLevelList classIds rootCpus classifier splitLevel children)

def splitLevelList (classIds : List ℤ) (rootCpus : CpuSet) (classifier : ℕ → ℤ)
    (splitLevel : CPUTopologyLevel) (ts : List cpuTreeNode) : List cpuTreeNode :=
  match ts with
  | [] => []
  | c :: cs =>
      splitLevelGo classIds rootCpus classifier splitLevel c
      :: splitLevelList classIds rootCpus classifier splitLevel cs

end

/-- `cpuTreeNode.SplitLevel`.  The class map is built from the CPUs of
the receiver (the whole tree being split), and the walk rewrites every
node at `splitLevel`.  `classIds` is the order in which Go's
`for class, cpus := range classCpus` iterates the map keys — unspecified
at build time; a valid order is any permutation of
`classIdsOf t.cpus cpuClassifier`. -/
def SplitLevel (classIds : List ℤ) (t : cpuTreeNode)
    (splitLevel : CPUTopologyLevel) (cpuClassifier : ℕ → ℤ) : cpuTreeNode :=
  splitLevelGo classIds t.cpus cpuClassifier splitLevel t

mutual

/-- `cpuTreeNode.FindLeafWithCpu` fused with `SiblingIndex`: the
depth-first walk returns, for the first leaf whose `cpus` contain
`cpu`, that leaf's index among its parent's children.  `idx` is the
visited node's own sibling index (`-1` at the root, as in the source). -/
def findLeafSiblingIdx (cpu : ℕ) (idx : ℤ) (t : cpuTreeNode) : Option ℤ :=
  match t with
  | .node _ _ cpus children =>
    if children.isEmpty then (if cpu ∈ cpus then some idx else none)
    else findLeafSiblingIdxList cpu 0 children

def findLeafSiblingIdxList (cpu : ℕ) (k : ℤ) (ts : List cpuTreeNode) : Option ℤ :=
  match ts with
  | [] => none
  | c :: cs =>
    match findLeafSiblingIdx cpu k c with
    | some i => some i
    | none => findLeafSiblingIdxList cpu (k + 1) cs

end

/-- The CPU classifier `NewAllocator` hands to `SplitLevel`: the sibling
index of the leaf (hyperthread) holding the CPU.  The source calls
`log.Fatalf` for a CPU absent from the tree; the model returns 0 there
and is only applied to CPUs present in the tree. -/
def siblingIndexClassifier (t : cpuTreeNode) (cpu : ℕ) : ℤ :=
  (findLeafSiblingIdx cpu (-1) t).getD 0

/-- `cpuTreeNode.NewAllocator`: builds the allocator record; with
`preferSpreadOnPhysicalCores` the root is the NUMA-level split of the
tree.  The hint cache is passed explicitly (`options.virtDevCpusets`,
or the empty map); `classIds` is the unspecified map-iteration order of
the split (see `SplitLevel`). -/
def NewAllocator (classIds : List ℤ) (t : cpuTreeNode)
    (options : cpuTreeAllocatorOptions)
    (cacheCloseCpuSets : String → List CpuSet) : cpuTreeAllocator :=
  if options.preferSpreadOnPhysicalCores then
    ⟨options, SplitLevel classIds t .numa (siblingIndexClassifier t),
      cacheCloseCpuSets⟩
  else ⟨options, t, cacheCloseCpuSets⟩

/-- Options preferring one thread per physical core, as set by the
balloons policy when `preferSpreadOnPhysicalCores` is configured. -/
def spreadOptions : cpuTreeAllocatorOptions := ⟨false, true, [], [], false⟩

/-- The spec's two-cache example topology: one NUMA node, two L2
caches, each with two 2-thread cores. -/
def cacheTree : cpuTreeNode :=
  .node "root" .system {0, 1, 2, 3, 4, 5, 6, 7} [
    .node "numa" .numa {0, 1, 2, 3, 4, 5, 6, 7} [
      .node "cache0" .l2cache {0, 1, 2, 3} [
        .node "core00" .core {0, 1} [
          .node "thread000" .thread {0} [],
          .node "thread001" .thread {1} []],
        .node "core01" .core {2, 3} [
          .node "thread010" .thread {2} [],
          .node "thread011" .thread {3} []]],
      .node "cache1" .l2cache {4, 5, 6, 7} [
        .node "core10" .core {4, 5} [
          .node "thread100" .thread {4} [],
          .node "thread101" .thread {5} []],
        .node "core11" .core {6, 7} [
          .node "thread110" .thread {6} [],
          .node "thread111" .thread {7} []]]]]

/-- Allocator built from `cacheTree` with spread options and class-map
iteration order `[0, 1]`. -/
def spreadTa1 : cpuTreeAllocator :=
  NewAllocator [0, 1] cacheTree spreadOptions (fun _ => [])

/-- The same build with the other map-iteration order `[1, 0]`. -/
def spreadTa2 : cpuTreeAllocator :=
  NewAllocator [1, 0] cacheTree spreadOptions (fun _ => [])

theorem CpuSet.list_mk (l : List ℕ) (h) :
    CpuSet.list ⟨Quotient.mk _ l, h⟩ = List.insertionSort (· ≤ ·) l := rfl

theorem CpuSet.mem_list {s : CpuSet} {x : ℕ} : x ∈ CpuSet.list s ↔ x ∈ s := by
  rcases s with ⟨m, hm⟩
  induction m using Quotient.inductionOn with
  | h l =>
    rw [CpuSet.list_mk]
    rw [(List.perm_insertionSort (· ≤ ·) l).mem_iff]
    exact Iff.rfl

theorem CpuSet.list_sorted (s : CpuSet) : List.Sorted (· ≤ ·) (CpuSet.list s) := by
  rcases s with ⟨m, hm⟩
  induction m using Quotient.inductionOn with
  | h l => rw [CpuSet.list_mk]; exact List.sorted_insertionSort _ l

theorem CpuSet.list_nodup (s : CpuSet) : (CpuSet.list s).Nodup := by
  rcases s with ⟨m, hm⟩
  induction m using Quotient.inductionOn with
  | h l =>
    rw [CpuSet.list_mk]
    exact (List.perm_insertionSort (· ≤ ·) l).nodup_iff.mpr hm

theorem CpuSet.list_length (s : CpuSet) : (CpuSet.list s).length = s.card := by
  rcases s with ⟨m, hm⟩
  induction m using Quotient.inductionOn with
  | h l => rw [CpuSet.list_mk]; exact (List.perm_insertionSort (· ≤ ·) l).length_eq

theorem CpuSet.list_inj {a b : CpuSet} (h : CpuSet.list a = CpuSet.list b) :
    a = b := by
  ext x
  rw [← CpuSet.mem_list, ← CpuSet.mem_list (s := b), h]

theorem validUnsorted_sortedUnsorted : validUnsorted sortedUnsorted :=
  fun _ => List.Perm.refl _

theorem validUnsorted.mem {σ : CpuSet → List ℕ} (h : validUnsorted σ)
    {s : CpuSet} {x : ℕ} : x ∈ σ s ↔ x ∈ s := by
  rw [(h s).mem_iff, CpuSet.mem_list]

theorem validUnsorted.nodup {σ : CpuSet → List ℕ} (h : validUnsorted σ)
    (s : CpuSet) : (σ s).Nodup :=
  (h s).nodup_iff.mpr (CpuSet.list_nodup s)

theorem validUnsorted.length {σ : CpuSet → List ℕ} (h : validUnsorted σ)
    (s : CpuSet) : (σ s).length = s.card :=
  (h s).length_eq.trans (CpuSet.list_length s)

theorem listCharLt_iff (l₁ l₂ : List Char) :
    listCharLt l₁ l₂ = true ↔ l₁ < l₂ := by
  induction l₁ generalizing l₂ with
  | nil =>
    cases l₂ with
    | nil =>
      simp only [listCharLt, Bool.false_eq_true, false_iff]
      intro h; cases h
    | cons d ds =>
      simp only [listCharLt, true_iff]
      exact List.Lex.nil
  | cons c cs ih =>
    cases l₂ with
    | nil =>
      simp only [listCharLt, Bool.false_eq_true, false_iff]
      intro h; cases h
    | cons d ds =>
      simp only [listCharLt]
      by_cases h1 : c.val < d.val
      · simp only [if_pos h1, true_iff]
        exact List.Lex.rel h1
      · by_cases h2 : d.val < c.val
        · simp only [if_neg h1, if_pos h2, Bool.false_eq_true, false_iff]
          intro h
          cases h with
          | rel hlt => exact h1 hlt
          | cons _ =>
            have hdd : c < c := h2
            exact absurd hdd (lt_irrefl c)
        · have hc1 : ¬ c < d := h1
          have hc2 : ¬ d < c := h2
          have hcd : c = d := le_antisymm (le_of_not_lt hc2) (le_of_not_lt hc1)
          subst hcd
          simp only [if_neg h1, if_neg h2, ih]
          constructor
          · intro h; exact List.Lex.cons h
          · intro h
            cases h with
            | rel hlt => exact absurd hlt h1
            | cons htl => exact htl

theorem goStringLt_iff_lt (a b : String) : goStringLt a b = true ↔ a < b := by
  rw [String.lt_iff_toList_lt]
  exact listCharLt_iff a.data b.data

theorem firstDiff_self (xs : List ℕ) : firstDiff xs xs = none := by
  induction xs with
  | nil => rfl
  | cons x xs ih => simp [firstDiff, ih]

theorem firstDiff_ne {xs ys : List ℕ} {x y : ℕ}
    (h : firstDiff xs ys = some (x, y)) : x ≠ y := by
  induction xs generalizing ys with
  | nil => simp [firstDiff] at h
  | cons a as ih =>
    cases ys with
    | nil => simp [firstDiff] at h
    | cons b bs =>
      by_cases hab : a = b
      · rw [firstDiff, if_neg (by simp [hab])] at h
        exact ih h
      · rw [firstDiff, if_pos (by simpa using hab)] at h
        cases h
        exact hab

theorem firstDiff_none_eq {xs ys : List ℕ} (hlen : xs.length = ys.length)
    (h : firstDiff xs ys = none) : xs = ys := by
  induction xs generalizing ys with
  | nil => cases ys with
    | nil => rfl
    | cons b bs => simp at hlen
  | cons a as ih =>
    cases ys with
    | nil => simp at hlen
    | cons b bs =>
      by_cases hab : a = b
      · rw [firstDiff, if_neg (by simp [hab])] at h
        rw [hab, ih (by simpa using hlen) h]
      · rw [firstDiff, if_pos (by simpa using hab)] at h
        cases h

theorem lex_cons_inv {α : Type} [LT α] {x y : α} {l₁ l₂ : List α}
    (h : List.Lex (· < ·) (x :: l₁) (y :: l₂)) :
    x < y ∨ (x = y ∧ List.Lex (· < ·) l₁ l₂) := by
  cases h with
  | rel hlt => exact Or.inl hlt
  | cons htl => exact Or.inr ⟨rfl, htl⟩

theorem mapf_lex_iff (f : ℕ → ℤ) (hinj : Function.Injective f) :
    ∀ {xs ys : List ℕ}, xs.length = ys.length →
      (xs.map f < ys.map f ↔ ∃ x y, firstDiff xs ys = some (x, y) ∧ f x < f y) := by
  intro xs
  induction xs with
  | nil =>
    intro ys hlen
    cases ys with
    | nil =>
      simp only [List.map_nil, firstDiff]
      constructor
      · intro h; cases h
      · rintro ⟨x, y, hxy, -⟩; cases hxy
    | cons b bs => simp at hlen
  | cons a as ih =>
    intro ys hlen
    cases ys with
    | nil => simp at hlen
    | cons b bs =>
      simp only [List.map_cons]
      by_cases hab : a = b
      · subst hab
        rw [firstDiff, if_neg (by simp)]
        constructor
        · intro h
          rcases lex_cons_inv h with hlt | ⟨-, htl⟩
          · exact absurd hlt (lt_irrefl _)
          · exact (ih (by simpa using hlen)).mp htl
        · intro h
          exact List.Lex.cons ((ih (by simpa using hlen)).mpr h)
      · rw [firstDiff, if_pos (by simpa using hab)]
        constructor
        · intro h
          rcases lex_cons_inv h with hlt | ⟨heq, -⟩
          · exact ⟨a, b, rfl, hlt⟩
          · exact absurd (hinj heq) hab
        · rintro ⟨x, y, hxy, hlt⟩
          rw [Option.some_inj] at hxy
          cases hxy
          exact List.Lex.rel hlt

/-- The strictly antitone embedding used for "higher count is better"
keys. -/
theorem negCast_lt_iff (x y : ℕ) : (-(x : ℤ) < -(y : ℤ)) ↔ y < x := by omega

theorem negCast_injective : Function.Injective (fun n : ℕ => -(n : ℤ)) := by
  intro a b h; dsimp only at h; omega

theorem posCast_lt_iff (x y : ℕ) : ((x : ℤ) < (y : ℤ)) ↔ x < y := by omega

theorem posCast_injective : Function.Injective (fun n : ℕ => (n : ℤ)) := by
  intro a b h; dsimp only at h; omega

/-- The lexicographic key whose strict order the allocate comparator
implements (proved in the C6 theorem): first the negated depth (deeper
is better), then the negated per-depth current counts (higher is
better, outermost ancestor first), then the per-depth free counts
(negated — higher is better — when `topologyBalancing`, plain — lower
is better — otherwise), and finally the node name ascending. -/
def allocKey (topologyBalancing : Bool) (a : cpuTreeNodeAttributes) :
    Lex (ℤ × Lex (List ℤ × Lex (List ℤ × String))) :=
  toLex (-(a.depth : ℤ),
    toLex (a.currentCpuCounts.map (fun n : ℕ => -(n : ℤ)),
      toLex ((if topologyBalancing then a.freeCpuCounts.map (fun n : ℕ => -(n : ℤ))
              else a.freeCpuCounts.map (fun n : ℕ => (n : ℤ))), a.t.name)))

/-- The lexicographic key whose strict order the release comparator
implements (proved in the C7 theorem): negated depth (deeper is
better), plain per-depth current counts (lower is better), plain
per-depth free counts (lower is better — the same direction for both
values of the balancing flag), and the node name descending. -/
def releaseKey (a : cpuTreeNodeAttributes) :
    Lex (ℤ × Lex (List ℤ × Lex (List ℤ × Stringᵒᵈ))) :=
  toLex (-(a.depth : ℤ),
    toLex (a.currentCpuCounts.map (fun n : ℕ => (n : ℤ)),
      toLex (a.freeCpuCounts.map (fun n : ℕ => (n : ℤ)), OrderDual.toDual a.t.name)))


theorem key_lt_iff {β : Type} [LinearOrder β] (d₁ d₂ : ℤ)
    (c₁ c₂ f₁ f₂ : List ℤ) (n₁ n₂ : β) :
    (toLex (d₁, toLex (c₁, toLex (f₁, n₁))) <
        toLex (d₂, toLex (c₂, toLex (f₂, n₂)))) ↔
      (d₁ < d₂ ∨ (d₁ = d₂ ∧ (c₁ < c₂ ∨ (c₁ = c₂ ∧
        (f₁ < f₂ ∨ (f₁ = f₂ ∧ n₁ < n₂)))))) := by
  simp only [Prod.Lex.lt_iff, toLex_inj, Prod.mk.injEq]

theorem mapf_lt_of_firstDiff (f : ℕ → ℤ) (hinj : Function.Injective f)
    {xs ys : List ℕ} {x y : ℕ} (hlen : xs.length = ys.length)
    (hfd : firstDiff xs ys = some (x, y)) :
    (xs.map f < ys.map f) ↔ f x < f y := by
  rw [mapf_lex_iff f hinj hlen]
  constructor
  · rintro ⟨x', y', hfd', hlt⟩
    rw [hfd] at hfd'
    rw [Option.some_inj] at hfd'
    cases hfd'
    exact hlt
  · intro h; exact ⟨x, y, hfd, h⟩

theorem mapf_ne_of_firstDiff (f : ℕ → ℤ) (hinj : Function.Injective f)
    {xs ys : List ℕ} {x y : ℕ}
    (hfd : firstDiff xs ys = some (x, y)) :
    ¬ (xs.map f = ys.map f) := by
  intro h
  have := List.map_injective_iff.mpr hinj h
  rw [this, firstDiff_self] at hfd
  cases hfd

/-- The shared shape of the two sort comparators: depth key, then the
current-count loop, then the free-count loop, then the name key.  Both
comparators are definitionally instances of this shape. -/
def genCmp (cmpC cmpF : ℕ → ℕ → Bool) (cmpN : String → String → Bool)
    (a b : cpuTreeNodeAttributes) : Bool :=
  if a.depth ≠ b.depth then
    decide (a.depth > b.depth)
  else
    match firstDiff a.currentCpuCounts b.currentCpuCounts with
    | some (x, y) => cmpC x y
    | none =>
      match firstDiff a.freeCpuCounts b.freeCpuCounts with
      | some (x, y) => cmpF x y
      | none => cmpN a.t.name b.t.name

/-- The generic lexicographic key for a comparator of shape `genCmp`. -/
def genKey {β : Type} (fC fF : ℕ → ℤ) (fN : String → β)
    (a : cpuTreeNodeAttributes) : Lex (ℤ × Lex (List ℤ × Lex (List ℤ × β))) :=
  toLex (-(a.depth : ℤ),
    toLex (a.currentCpuCounts.map fC,
      toLex (a.freeCpuCounts.map fF, fN a.t.name)))

theorem genCmp_iff_lt {β : Type} [LinearOrder β]
    (cmpC cmpF : ℕ → ℕ → Bool) (cmpN : String → String → Bool)
    (fC fF : ℕ → ℤ) (fN : String → β)
    (hCinj : Function.Injective fC) (hFinj : Function.Injective fF)
    (hC : ∀ x y, x ≠ y → (cmpC x y = true ↔ fC x < fC y))
    (hF : ∀ x y, x ≠ y → (cmpF x y = true ↔ fF x < fF y))
    (hN : ∀ n m, cmpN n m = true ↔ fN n < fN m)
    (a b : cpuTreeNodeAttributes)
    (ha1 : a.currentCpuCounts.length = a.depth + 1)
    (hb1 : b.currentCpuCounts.length = b.depth + 1)
    (ha2 : a.freeCpuCounts.length = a.depth + 1)
    (hb2 : b.freeCpuCounts.length = b.depth + 1) :
    (genCmp cmpC cmpF cmpN a b = true ↔
      genKey fC fF fN a < genKey fC fF fN b) := by
  unfold genCmp genKey
  rw [key_lt_iff]
  by_cases hd : a.depth = b.depth
  · have hlen1 : a.currentCpuCounts.length = b.currentCpuCounts.length := by
      rw [ha1, hb1, hd]
    have hlen2 : a.freeCpuCounts.length = b.freeCpuCounts.length := by
      rw [ha2, hb2, hd]
    rw [if_neg (by simpa using hd)]
    have hdkey : -(a.depth : ℤ) = -(b.depth : ℤ) := by rw [hd]
    rw [hdkey]
    simp only [lt_self_iff_false, false_or, eq_self_iff_true, true_and]
    cases hfd : firstDiff a.currentCpuCounts b.currentCpuCounts with
    | some xy =>
      obtain ⟨x, y⟩ := xy
      rw [hC x y (firstDiff_ne hfd),
        mapf_lt_of_firstDiff fC hCinj hlen1 hfd,
        eq_false (mapf_ne_of_firstDiff fC hCinj hfd)]
      simp only [false_and, or_false]
    | none =>
      have hceq : a.currentCpuCounts = b.currentCpuCounts :=
        firstDiff_none_eq hlen1 hfd
      rw [hceq]
      simp only [lt_self_iff_false, false_or, eq_self_iff_true, true_and]
      cases hfd2 : firstDiff a.freeCpuCounts b.freeCpuCounts with
      | some xy =>
        obtain ⟨x, y⟩ := xy
        rw [hF x y (firstDiff_ne hfd2),
          mapf_lt_of_firstDiff fF hFinj hlen2 hfd2,
          eq_false (mapf_ne_of_firstDiff fF hFinj hfd2)]
        simp only [false_and, or_false]
      | none =>
        have hfeq : a.freeCpuCounts = b.freeCpuCounts :=
          firstDiff_none_eq hlen2 hfd2
        rw [hfeq]
        simp only [lt_self_iff_false, false_or, eq_self_iff_true, true_and]
        exact hN a.t.name b.t.name
  · rw [if_pos (by simpa using hd)]
    have h1 : (-(a.depth : ℤ) < -(b.depth : ℤ)) ↔ b.depth < a.depth := by omega
    have h2 : ¬ (-(a.depth : ℤ) = -(b.depth : ℤ)) := by omega
    rw [h1, eq_false h2]
    simp only [false_and, or_false, decide_eq_true_eq, gt_iff_lt]

theorem sorterAllocate_true_genCmp (a b : cpuTreeNodeAttributes) :
    sorterAllocate true a b =
      genCmp (fun x y => decide (x > y)) (fun x y => decide (x > y)) goStringLt a b := rfl

theorem sorterAllocate_false_genCmp (a b : cpuTreeNodeAttributes) :
    sorterAllocate false a b =
      genCmp (fun x y => decide (x > y)) (fun x y => decide (x < y)) goStringLt a b := rfl

theorem sorterRelease_genCmp (bal : Bool) (a b : cpuTreeNodeAttributes) :
    sorterRelease bal a b =
      genCmp (fun x y => decide (x < y)) (fun x y => decide (x < y))
        (fun p q => goStringLt q p) a b := by
  cases bal <;> rfl

theorem allocKey_true_genKey (a : cpuTreeNodeAttributes) :
    allocKey true a =
      genKey (fun n => -(n : ℤ)) (fun n => -(n : ℤ)) (fun s => s) a := by
  unfold allocKey genKey
  rfl

theorem allocKey_false_genKey (a : cpuTreeNodeAttributes) :
    allocKey false a =
      genKey (fun n => -(n : ℤ)) (fun n => (n : ℤ)) (fun s => s) a := by
  unfold allocKey genKey
  rfl

theorem releaseKey_genKey (a : cpuTreeNodeAttributes) :
    releaseKey a =
      genKey (fun n => (n : ℤ)) (fun n => (n : ℤ)) OrderDual.toDual a := by
  unfold releaseKey genKey
  rfl

/-- C6: the allocate comparator is the strict ordering given by the
lexicographic key `allocKey`: strictly deeper depth first; then, for
each ancestor depth from 0 downward, strictly higher
`currentCpuCounts`; then per-depth `freeCpuCounts`, with higher
preferred when `topologyBalancing` is true and lower preferred when it
is false; and finally ascending node name as the tie-break.  The
hypotheses say the records are attributed records (count vectors of
length `depth + 1`), which is what `toAttributedSlice` produces. -/
theorem C6_sorterAllocate_lex_spec (bal : Bool) (a b : cpuTreeNodeAttributes)
    (ha1 : a.currentCpuCounts.length = a.depth + 1)
    (hb1 : b.currentCpuCounts.length = b.depth + 1)
    (ha2 : a.freeCpuCounts.length = a.depth + 1)
    (hb2 : b.freeCpuCounts.length = b.depth + 1) :
    (sorterAllocate bal a b = true ↔ allocKey bal a < allocKey bal b) := by
  have hgt : ∀ x y : ℕ, x ≠ y → ((decide (x > y)) = true ↔ -(x : ℤ) < -(y : ℤ)) := by
    intro x y _
    rw [decide_eq_true_eq, gt_iff_lt, negCast_lt_iff]
  have hlt : ∀ x y : ℕ, x ≠ y → ((decide (x < y)) = true ↔ (x : ℤ) < (y : ℤ)) := by
    intro x y _
    rw [decide_eq_true_eq, posCast_lt_iff]
  have hname : ∀ n m : String,
      (goStringLt n m = true ↔ (fun s => s) n < (fun s => s) m) := by
    intro n m
    exact goStringLt_iff_lt n m
  cases bal with
  | true =>
    rw [sorterAllocate_true_genCmp, allocKey_true_genKey, allocKey_true_genKey]
    exact genCmp_iff_lt (fun x y => decide (x > y)) (fun x y => decide (x > y))
      goStringLt (fun n => -(n : ℤ)) (fun n => -(n : ℤ)) (fun s => s)
      negCast_injective negCast_injective hgt hgt hname a b ha1 hb1 ha2 hb2
  | false =>
    rw [sorterAllocate_false_genCmp, allocKey_false_genKey, allocKey_false_genKey]
    exact genCmp_iff_lt (fun x y => decide (x > y)) (fun x y => decide (x < y))
      goStringLt (fun n => -(n : ℤ)) (fun n => (n : ℤ)) (fun s => s)
      negCast_injective posCast_injective hgt hlt hname a b ha1 hb1 ha2 hb2

theorem C6_sorterAllocate_lex_spec_witness :
    (({ t := .node "a" .core ∅ [], depth := 1, currentCpus := ∅, freeCpus := ∅,
        currentCpuCount := 0, currentCpuCounts := [3, 1], freeCpuCount := 0,
        freeCpuCounts := [2, 2]} : cpuTreeNodeAttributes).currentCpuCounts.length = 1 + 1)
    ∧ (sorterAllocate true
        { t := .node "a" .core ∅ [], depth := 1, currentCpus := ∅, freeCpus := ∅,
          currentCpuCount := 0, currentCpuCounts := [3, 1], freeCpuCount := 0,
          freeCpuCounts := [2, 2] }
        { t := .node "b" .core ∅ [], depth := 1, currentCpus := ∅, freeCpus := ∅,
          currentCpuCount := 0, currentCpuCounts := [3, 2], freeCpuCount := 0,
          freeCpuCounts := [2, 2] } = true ↔
      allocKey true
        { t := .node "a" .core ∅ [], depth := 1, currentCpus := ∅, freeCpus := ∅,
          currentCpuCount := 0, currentCpuCounts := [3, 1], freeCpuCount := 0,
          freeCpuCounts := [2, 2] } <
      allocKey true
        { t := .node "b" .core ∅ [], depth := 1, currentCpus := ∅, freeCpus := ∅,
          currentCpuCount := 0, currentCpuCounts := [3, 2], freeCpuCount := 0,
          freeCpuCounts := [2, 2] }) :=
  ⟨by decide,
   C6_sorterAllocate_lex_spec true _ _ (by decide) (by decide) (by decide) (by decide)⟩

/-- C7: the release comparator is the strict ordering given by the
lexicographic key `releaseKey`: strictly deeper depth first; then, for
each ancestor depth from 0 downward, strictly lower
`currentCpuCounts`; then per-depth `freeCpuCounts` with the same
direction — lower preferred — whether `topologyBalancing` is true or
false (the key does not mention the flag at all); and finally
descending node name as the tie-break.  The hypotheses say the records
are attributed records (count vectors of length `depth + 1`). -/
theorem C7_sorterRelease_lex_spec (bal : Bool) (a b : cpuTreeNodeAttributes)
    (ha1 : a.currentCpuCounts.length = a.depth + 1)
    (hb1 : b.currentCpuCounts.length = b.depth + 1)
    (ha2 : a.freeCpuCounts.length = a.depth + 1)
    (hb2 : b.freeCpuCounts.length = b.depth + 1) :
    (sorterRelease bal a b = true ↔ releaseKey a < releaseKey b) := by
  have hlt : ∀ x y : ℕ, x ≠ y → ((decide (x < y)) = true ↔ (x : ℤ) < (y : ℤ)) := by
    intro x y _
    rw [decide_eq_true_eq, posCast_lt_iff]
  have hname : ∀ n m : String,
      ((fun p q => goStringLt q p) n m = true ↔
        OrderDual.toDual n < OrderDual.toDual m) := by
    intro n m
    rw [OrderDual.toDual_lt_toDual]
    exact goStringLt_iff_lt m n
  rw [sorterRelease_genCmp, releaseKey_genKey, releaseKey_genKey]
  exact genCmp_iff_lt (fun x y => decide (x < y)) (fun x y => decide (x < y))
    (fun p q => goStringLt q p) (fun n => (n : ℤ)) (fun n => (n : ℤ))
    OrderDual.toDual posCast_injective posCast_injective hlt hlt hname
    a b ha1 hb1 ha2 hb2

theorem C7_sorterRelease_lex_spec_witness :
    (({ t := .node "a" .core ∅ [], depth := 1, currentCpus := ∅, freeCpus := ∅,
        currentCpuCount := 0, currentCpuCounts := [3, 1], freeCpuCount := 0,
        freeCpuCounts := [2, 2] } : cpuTreeNodeAttributes).currentCpuCounts.length = 1 + 1)
    ∧ (sorterRelease false
        { t := .node "a" .core ∅ [], depth := 1, currentCpus := ∅, freeCpus := ∅,
          currentCpuCount := 0, currentCpuCounts := [3, 1], freeCpuCount := 0,
          freeCpuCounts := [2, 2] }
        { t := .node "b" .core ∅ [], depth := 1, currentCpus := ∅, freeCpus := ∅,
          currentCpuCount := 0, currentCpuCounts := [3, 2], freeCpuCount := 0,
          freeCpuCounts := [2, 2] } = true ↔
      releaseKey
        { t := .node "a" .core ∅ [], depth := 1, currentCpus := ∅, freeCpus := ∅,
          currentCpuCount := 0, currentCpuCounts := [3, 1], freeCpuCount := 0,
          freeCpuCounts := [2, 2] } <
      releaseKey
        { t := .node "b" .core ∅ [], depth := 1, currentCpus := ∅, freeCpus := ∅,
          currentCpuCount := 0, currentCpuCounts := [3, 2], freeCpuCount := 0,
          freeCpuCounts := [2, 2] }) :=
  ⟨by decide,
   C7_sorterRelease_lex_spec false _ _ (by decide) (by decide) (by decide) (by decide)⟩

/-- Default options: balancing off, no core spreading, no device
preferences, no update callback. -/
def demoOptions : cpuTreeAllocatorOptions := ⟨false, false, [], [], false⟩

/-- A one-node topology owning only CPU 0. -/
def soloTree : cpuTreeNode := .node "root" .system {0} []

/-- Allocator over `soloTree` with default options and an empty hint
cache. -/
def soloTa : cpuTreeAllocator := ⟨demoOptions, soloTree, fun _ => []⟩

/-- C1 counterexample input: the tree owns only CPU 0, while the free
CPUs 2,3 lie outside it, so the trivial stage forwards
(`|free| = 2 > delta = 1`) and the max-local-set stage fails. -/
theorem C1_counterexample :
    (ResizeCpus sortedUnsorted soloTa {1} {2, 3} 1).err = some .notEnoughFreeLocal
    ∧ ¬ ((ResizeCpus sortedUnsorted soloTa {1} {2, 3} 1).removeFrom = ∅) := by
  constructor
  · decide
  · intro h
    have h2 : CpuSet.list (ResizeCpus sortedUnsorted soloTa {1} {2, 3} 1).removeFrom
        = [1] := by decide
    rw [h] at h2
    exact absurd h2 (by decide)

/-- C1 (amended): a `ResizeCpus` call that fails in the trivial stage
with `InsufficientFreeCpus` (`delta > 0`, `|free| < delta`) returns
`(free, ∅)`; the max-local-set stage, when its filtered attributed
slice is empty, returns its own `freeCpus` and `currentCpus` arguments
unchanged — not `(free, ∅)`. -/
theorem C1_insufficient_free_returns (σ : CpuSet → List ℕ)
    (ta : cpuTreeAllocator) (currentCpus freeCpus : CpuSet) (delta : ℤ) :
    (0 < delta → (freeCpus.card : ℤ) < delta →
      ResizeCpus σ ta currentCpus freeCpus delta =
        ⟨freeCpus, ∅, some .notEnoughFreeCpus, [], false⟩)
    ∧ (∀ rest : List cpuResizer,
        ToAttributedSlice ta.root currentCpus freeCpus (maxLocalFilter delta) = [] →
        nextCpuResizer σ ta (.maxLocalSet :: rest) currentCpus freeCpus delta =
          ⟨freeCpus, currentCpus, some .notEnoughFreeLocal, [], false⟩) := by
  constructor
  · intro h1 h2
    show nextCpuResizer σ ta (.onlyIfNecessary :: _) currentCpus freeCpus delta = _
    simp only [nextCpuResizer]
    rw [if_neg (by omega), if_pos h1, if_pos h2]
  · intro rest h
    simp only [nextCpuResizer, h, goSortSlice, List.insertionSort, ite_self]

theorem C1_insufficient_free_returns_witness :
    (ResizeCpus sortedUnsorted soloTa {0} {1} 2 =
      ⟨{1}, ∅, some .notEnoughFreeCpus, [], false⟩)
    ∧ (nextCpuResizer sortedUnsorted soloTa [.maxLocalSet, .now] {1} {2, 3} 1 =
      ⟨{2, 3}, {1}, some .notEnoughFreeLocal, [], false⟩) :=
  ⟨(C1_insufficient_free_returns sortedUnsorted soloTa {0} {1} 2).1
      (by decide) (by decide),
   (C1_insufficient_free_returns sortedUnsorted soloTa {1} {2, 3} 1).2
      [.now] rfl⟩

/-- Allocator whose device-update callback is set (tree and cache are
immaterial for the dynamic-hints stage itself). -/
def callbackTa : cpuTreeAllocator := ⟨⟨false, false, [], [], true⟩, soloTree, fun _ => []⟩

/-- C8 counterexample: with the callback set and `delta = -1 ≤ 0` the
dynamic-hints stage still invokes the callback (with `current`) before
forwarding, so the recorded invocation list is not empty, contrary to
the claim that the callback is not invoked when `delta ≤ 0`. -/
theorem C8_counterexample :
    ¬ ((nextCpuResizer sortedUnsorted callbackTa
        [.withDynamicDeviceHints, .withDevices, .oneAtATime, .maxLocalSet, .now]
        {0} {1, 2} (-1)).calls = []) := by
  decide

/-- C8 (amended): if the `deviceUpdateOnEveryCpu` callback is unset,
the dynamic-hints stage forwards to the remainder of the chain with
`currentCpus`, `freeCpus`, `delta` unchanged and no callback
invocation; if the callback is set and `delta ≤ 0`, the stage first
invokes the callback with `currentCpus` and then forwards unchanged
(sets and error are the forwarded ones; the invocation trace gains
`currentCpus` in front). -/
theorem C8_dynamic_hints_forwarding (σ : CpuSet → List ℕ)
    (ta : cpuTreeAllocator) (rest : List cpuResizer)
    (currentCpus freeCpus : CpuSet) (delta : ℤ) :
    (ta.options.deviceUpdateOnEveryCpu = false →
      nextCpuResizer σ ta (.withDynamicDeviceHints :: rest) currentCpus freeCpus delta =
        nextCpuResizer σ ta rest currentCpus freeCpus delta)
    ∧ (ta.options.deviceUpdateOnEveryCpu = true → delta ≤ 0 →
      nextCpuResizer σ ta (.withDynamicDeviceHints :: rest) currentCpus freeCpus delta =
        { nextCpuResizer σ ta rest currentCpus freeCpus delta with
          calls := currentCpus ::
            (nextCpuResizer σ ta rest currentCpus freeCpus delta).calls }) := by
  constructor
  · intro h
    simp only [nextCpuResizer]
    rw [if_pos h]
  · intro h hd
    simp only [nextCpuResizer]
    rw [if_neg (by rw [h]; simp), if_pos hd]

theorem C8_dynamic_hints_forwarding_witness :
    (nextCpuResizer sortedUnsorted soloTa
        [.withDynamicDeviceHints, .now] {0} {1, 2} (-1) =
      nextCpuResizer sortedUnsorted soloTa [.now] {0} {1, 2} (-1))
    ∧ (nextCpuResizer sortedUnsorted callbackTa
        [.withDynamicDeviceHints, .now] {0} {1, 2} (-1) =
      { nextCpuResizer sortedUnsorted callbackTa [.now] {0} {1, 2} (-1) with
        calls := {0} ::
          (nextCpuResizer sortedUnsorted callbackTa [.now] {0} {1, 2} (-1)).calls }) :=
  ⟨(C8_dynamic_hints_forwarding sortedUnsorted soloTa [.now] {0} {1, 2} (-1)).1 rfl,
   (C8_dynamic_hints_forwarding sortedUnsorted callbackTa [.now] {0} {1, 2} (-1)).2
      rfl (by decide)⟩

/-- The C9 failing input: a NUMA node with two cores, core `b` owning
only CPU 1 (with a thread child), split at the NUMA level with the
identity classifier. -/
def splitDemoTree : cpuTreeNode :=
  .node "n" .numa {0, 1}
    [.node "a" .core {0} [], .node "b" .core {1} [.node "bt" .thread {1} []]]

/-- C9 (code bug): at the failing input, `SplitLevel` keeps the
duplicated subtree rooted at `b` under the synthetic class-0 child even
though its CPU set is masked to ∅ — the pruning walk cannot detach the
duplicated subtree's own root, which is attached only afterwards — and
`b`'s descendant even keeps its unmasked CPU set `{1}`.  This
contradicts the claim (and the source's own comment "cut out this
branch") that every duplicated subtree whose cpus becomes empty is
pruned, so that no node with an empty CPU set remains under a
synthetic child. -/
theorem C9_splitLevel_keeps_empty_subtree :
    ((((SplitLevel (classIdsOf splitDemoTree.cpus (fun c => (c : ℤ)))
          splitDemoTree .numa (fun c => (c : ℤ))).children.get? 0).bind
        (fun c => c.children.get? 1)).map (fun c => CpuSet.list c.cpus) = some [])
    ∧ (((((SplitLevel (classIdsOf splitDemoTree.cpus (fun c => (c : ℤ)))
          splitDemoTree .numa (fun c => (c : ℤ))).children.get? 0).bind
        (fun c => c.children.get? 1)).bind (fun c => c.children.get? 0)).map
          (fun c => CpuSet.list c.cpus) = some [1]) := by
  constructor
  · decide
  · decide

theorem dynHintsLoop_flag (next : CpuSet → CpuSet → ℤ → resizeResult)
    (hnext : ∀ c f d, (next c f d).consultedEmpty = false) (delta : ℤ) :
    ∀ (fuel : ℕ) (added addFrom removeFrom cur free : CpuSet)
      (calls : List CpuSet) (ce : Bool),
      (dynHintsLoop next delta fuel added addFrom removeFrom cur free calls
        ce).consultedEmpty = ce := by
  intro fuel
  induction fuel with
  | zero => intros; rfl
  | succ n ih =>
    intro added addFrom removeFrom cur free calls ce
    simp only [dynHintsLoop]
    split
    · rfl
    · split
      · rfl
      · split
        · simp only [hnext, Bool.or_false]
        · rw [ih, hnext, Bool.or_false]

theorem oneAtATimeAddLoop_flag (next : CpuSet → CpuSet → ℤ → resizeResult)
    (hnext : ∀ c f d, (next c f d).consultedEmpty = false)
    (ssAdd ssRemove : CpuSet) (delta : ℕ) :
    ∀ (left : ℕ) (addFrom cur free : CpuSet) (calls : List CpuSet) (ce : Bool),
      (oneAtATimeAddLoop next ssAdd ssRemove delta left addFrom cur free calls
        ce).consultedEmpty = ce := by
  intro left
  induction left with
  | zero => intros; rfl
  | succ n ih =>
    intro addFrom cur free calls ce
    simp only [oneAtATimeAddLoop]
    split
    · simp only [hnext, Bool.or_false]
    · split
      · simp only [hnext, Bool.or_false]
      · split
        · simp only [hnext, Bool.or_false]
        · rw [ih, hnext, Bool.or_false]

theorem oneAtATimeRemoveLoop_flag (next : CpuSet → CpuSet → ℤ → resizeResult)
    (hnext : ∀ c f d, (next c f d).consultedEmpty = false) (negDelta : ℕ) :
    ∀ (left : ℕ) (removeFrom cur free : CpuSet) (calls : List CpuSet) (ce : Bool),
      (oneAtATimeRemoveLoop next negDelta left removeFrom cur free calls
        ce).consultedEmpty = ce := by
  intro left
  induction left with
  | zero => intros; rfl
  | succ n ih =>
    intro removeFrom cur free calls ce
    simp only [oneAtATimeRemoveLoop]
    split
    · simp only [hnext, Bool.or_false]
    · split
      · simp only [hnext, Bool.or_false]
      · split
        · simp only [hnext, Bool.or_false]
        · rw [ih, hnext, Bool.or_false]

/-- The property that a chain suffix never consults an empty resizer
slice (its instrumentation flag stays false). -/
def NoEmptyConsult (σ : CpuSet → List ℕ) (ta : cpuTreeAllocator)
    (l : List cpuResizer) : Prop :=
  ∀ currentCpus freeCpus delta,
    (nextCpuResizer σ ta l currentCpus freeCpus delta).consultedEmpty = false

theorem noEmptyConsult_now (σ : CpuSet → List ℕ) (ta : cpuTreeAllocator)
    (rest : List cpuResizer) : NoEmptyConsult σ ta (.now :: rest) := by
  intro c f d; rfl

theorem noEmptyConsult_maxLocalSet (σ : CpuSet → List ℕ) (ta : cpuTreeAllocator)
    (rest : List cpuResizer) (h : NoEmptyConsult σ ta rest) :
    NoEmptyConsult σ ta (.maxLocalSet :: rest) := by
  intro c f d
  simp only [nextCpuResizer]
  split
  · rfl
  · exact h _ _ _

theorem noEmptyConsult_oneAtATime (σ : CpuSet → List ℕ) (ta : cpuTreeAllocator)
    (rest : List cpuResizer) (h : NoEmptyConsult σ ta rest) :
    NoEmptyConsult σ ta (.oneAtATime :: rest) := by
  intro c f d
  simp only [nextCpuResizer]
  split
  · split
    · exact h _ _ _
    · rw [oneAtATimeAddLoop_flag _ (fun c f d => h c f d), h]
  · rw [oneAtATimeRemoveLoop_flag _ (fun c f d => h c f d)]

theorem noEmptyConsult_withDevices (σ : CpuSet → List ℕ) (ta : cpuTreeAllocator)
    (rest : List cpuResizer) (h : NoEmptyConsult σ ta rest) :
    NoEmptyConsult σ ta (.withDevices :: rest) := by
  intro c f d
  simp only [nextCpuResizer]
  split
  · exact h _ _ _
  · split
    · exact h _ _ _
    · split
      · split
        · rfl
        · split
          · rfl
          · exact h _ _ _
      · rfl

theorem noEmptyConsult_withDynamicDeviceHints (σ : CpuSet → List ℕ)
    (ta : cpuTreeAllocator) (rest : List cpuResizer)
    (h : NoEmptyConsult σ ta rest) :
    NoEmptyConsult σ ta (.withDynamicDeviceHints :: rest) := by
  intro c f d
  simp only [nextCpuResizer]
  split
  · exact h _ _ _
  · split
    · exact h _ _ _
    · split
      · exact h _ _ _
      · rw [dynHintsLoop_flag _ (fun c f d => h c f d), h]

theorem noEmptyConsult_onlyIfNecessary (σ : CpuSet → List ℕ)
    (ta : cpuTreeAllocator) (rest : List cpuResizer)
    (h : NoEmptyConsult σ ta rest) :
    NoEmptyConsult σ ta (.onlyIfNecessary :: rest) := by
  intro c f d
  simp only [nextCpuResizer]
  split
  · rfl
  · split
    · split
      · rfl
      · split
        · rfl
        · exact h _ _ _
    · split
      · rfl
      · split
        · rfl
        · exact h _ _ _

/-- C10: along the full `ResizeCpus` chain, `nextCpuResizer` is never
consulted with an empty resizer slice — the internal-error branch for
an empty slice is unreachable, because every stage consults its
successors with the non-empty remainder it was given and the chain
ends with `resizeCpusNow`, which consults no successor.  The
instrumentation flag `consultedEmpty`, which the empty-slice branch
(and only it) sets, is false for every input. -/
theorem C10_no_empty_resizer_consult (σ : CpuSet → List ℕ)
    (ta : cpuTreeAllocator) (currentCpus freeCpus : CpuSet) (delta : ℤ) :
    (ResizeCpus σ ta currentCpus freeCpus delta).consultedEmpty = false := by
  exact noEmptyConsult_onlyIfNecessary σ ta _
    (noEmptyConsult_withDynamicDeviceHints σ ta _
      (noEmptyConsult_withDevices σ ta _
        (noEmptyConsult_oneAtATime σ ta _
          (noEmptyConsult_maxLocalSet σ ta _
            (noEmptyConsult_now σ ta _))))) currentCpus freeCpus delta

theorem mem_goSortSlice {α : Type} {less : α → α → Bool} {xs : List α} {x : α} :
    x ∈ goSortSlice less xs ↔ x ∈ xs :=
  (List.perm_insertionSort _ xs).mem_iff

mutual

theorem toAttributedSliceGo_mem_facts (currentCpus freeCpus : CpuSet)
    (filter : cpuTreeNodeAttributes → Bool) (t : cpuTreeNode) (depth : ℕ)
    (cc fc : List ℕ) (hcc : cc.length = depth) (hfc : fc.length = depth) :
    ∀ tna ∈ toAttributedSliceGo currentCpus freeCpus filter t depth cc fc,
      tna.currentCpus ⊆ currentCpus ∧ tna.freeCpus ⊆ freeCpus ∧
      tna.currentCpuCount = tna.currentCpus.card ∧
      tna.freeCpuCount = tna.freeCpus.card ∧
      filter tna = true ∧
      tna.currentCpuCounts.length = tna.depth + 1 ∧
      tna.freeCpuCounts.length = tna.depth + 1 := by
  intro tna hmem
  cases t with
  | node nm lv cpus children =>
    rw [toAttributedSliceGo] at hmem
    split at hmem
    · rename_i hfil
      rcases List.mem_cons.mp hmem with heq | htail
      · subst heq
        refine ⟨Finset.inter_subset_right, Finset.inter_subset_right,
          rfl, rfl, hfil, ?_, ?_⟩
        · simp [hcc]
        · simp [hfc]
      · exact toAttributedSliceListGo_mem_facts currentCpus freeCpus filter
          children (depth + 1) _ _ (by simp [hcc]) (by simp [hfc]) tna htail
    · cases hmem

theorem toAttributedSliceListGo_mem_facts (currentCpus freeCpus : CpuSet)
    (filter : cpuTreeNodeAttributes → Bool) (ts : List cpuTreeNode) (depth : ℕ)
    (cc fc : List ℕ) (hcc : cc.length = depth) (hfc : fc.length = depth) :
    ∀ tna ∈ toAttributedSliceListGo currentCpus freeCpus filter ts depth cc fc,
      tna.currentCpus ⊆ currentCpus ∧ tna.freeCpus ⊆ freeCpus ∧
      tna.currentCpuCount = tna.currentCpus.card ∧
      tna.freeCpuCount = tna.freeCpus.card ∧
      filter tna = true ∧
      tna.currentCpuCounts.length = tna.depth + 1 ∧
      tna.freeCpuCounts.length = tna.depth + 1 := by
  intro tna hmem
  cases ts with
  | nil => cases hmem
  | cons c cs =>
    rw [toAttributedSliceListGo] at hmem
    rcases List.mem_append.mp hmem with h | h
    · exact toAttributedSliceGo_mem_facts currentCpus freeCpus filter c
        depth cc fc hcc hfc tna h
    · exact toAttributedSliceListGo_mem_facts currentCpus freeCpus filter cs
        depth cc fc hcc hfc tna h

end

theorem ToAttributedSlice_mem_facts (root : cpuTreeNode)
    (currentCpus freeCpus : CpuSet) (filter : cpuTreeNodeAttributes → Bool) :
    ∀ tna ∈ ToAttributedSlice root currentCpus freeCpus filter,
      tna.currentCpus ⊆ currentCpus ∧ tna.freeCpus ⊆ freeCpus ∧
      tna.currentCpuCount = tna.currentCpus.card ∧
      tna.freeCpuCount = tna.freeCpus.card ∧
      filter tna = true ∧
      tna.currentCpuCounts.length = tna.depth + 1 ∧
      tna.freeCpuCounts.length = tna.depth + 1 :=
  toAttributedSliceGo_mem_facts currentCpus freeCpus filter _ 0 [] [] rfl rfl

theorem oneAtATimeAddLoop_removeFrom (next : CpuSet → CpuSet → ℤ → resizeResult)
    (ssAdd ssRemove : CpuSet) (delta : ℕ) :
    ∀ (left : ℕ) (acc cur free : CpuSet) (calls : List CpuSet) (ce : Bool),
      (oneAtATimeAddLoop next ssAdd ssRemove delta left acc cur free calls
        ce).removeFrom = ssRemove := by
  intro left
  induction left with
  | zero => intros; rfl
  | succ n ih =>
    intro acc cur free calls ce
    simp only [oneAtATimeAddLoop]
    split
    · rfl
    · split
      · rfl
      · split
        · rfl
        · exact ih _ _ _ _ _

theorem oneAtATimeAddLoop_addFrom_subset
    (next : CpuSet → CpuSet → ℤ → resizeResult)
    (hnext : ∀ c f d, (next c f d).addFrom ⊆ f)
    (f₀ ssAdd ssRemove : CpuSet) (delta : ℕ) (hss : ssAdd ⊆ f₀) :
    ∀ (left : ℕ) (acc cur free : CpuSet) (calls : List CpuSet) (ce : Bool),
      acc ⊆ f₀ → free ⊆ f₀ →
      (oneAtATimeAddLoop next ssAdd ssRemove delta left acc cur free calls
        ce).addFrom ⊆ f₀ := by
  intro left
  induction left with
  | zero => intro acc cur free calls ce hacc _; exact hacc
  | succ n ih =>
    intro acc cur free calls ce hacc hfree
    simp only [oneAtATimeAddLoop]
    split
    · exact hss
    · split
      · exact hss
      · split
        · exact hss
        · exact ih _ _ _ _ _
            (Finset.union_subset hacc ((hnext cur free 1).trans hfree))
            ((Finset.sdiff_subset).trans hfree)

theorem oneAtATimeRemoveLoop_addFrom
    (next : CpuSet → CpuSet → ℤ → resizeResult) (negDelta : ℕ) :
    ∀ (left : ℕ) (acc cur free : CpuSet) (calls : List CpuSet) (ce : Bool),
      (oneAtATimeRemoveLoop next negDelta left acc cur free calls ce).addFrom
        = ∅ := by
  intro left
  induction left with
  | zero => intros; rfl
  | succ n ih =>
    intro acc cur free calls ce
    simp only [oneAtATimeRemoveLoop]
    split
    · rfl
    · split
      · rfl
      · split
        · rfl
        · exact ih _ _ _ _ _

theorem oneAtATimeRemoveLoop_removeFrom_subset
    (next : CpuSet → CpuSet → ℤ → resizeResult)
    (hnext : ∀ c f d, (next c f d).removeFrom ⊆ c)
    (c₀ : CpuSet) (negDelta : ℕ) :
    ∀ (left : ℕ) (acc cur free : CpuSet) (calls : List CpuSet) (ce : Bool),
      acc ⊆ c₀ → cur ⊆ c₀ →
      (oneAtATimeRemoveLoop next negDelta left acc cur free calls
        ce).removeFrom ⊆ c₀ := by
  intro left
  induction left with
  | zero => intro acc cur free calls ce hacc _; exact hacc
  | succ n ih =>
    intro acc cur free calls ce hacc hcur
    simp only [oneAtATimeRemoveLoop]
    split
    · exact hacc
    · split
      · exact hacc
      · split
        · exact hacc
        · exact ih _ _ _ _ _
            (Finset.union_subset hacc ((hnext cur free (-1)).trans hcur))
            ((Finset.sdiff_subset).trans hcur)

theorem dynHintsLoop_addFrom_subset
    (next : CpuSet → CpuSet → ℤ → resizeResult)
    (hnext : ∀ c f d, (next c f d).addFrom ⊆ f)
    (f₀ : CpuSet) (delta : ℤ) :
    ∀ (fuel : ℕ) (added addFrom removeFrom cur free : CpuSet)
      (calls : List CpuSet) (ce : Bool),
      added ⊆ f₀ → addFrom ⊆ f₀ → free ⊆ f₀ →
      (dynHintsLoop next delta fuel added addFrom removeFrom cur free calls
        ce).addFrom ⊆ f₀ := by
  intro fuel
  induction fuel with
  | zero => intro _ _ _ _ _ _ _ hadded _ _; exact hadded
  | succ n ih =>
    intro added addFrom removeFrom cur free calls ce hadded haddFrom hfree
    simp only [dynHintsLoop]
    split
    · exact hadded
    · rename_i a rest2 hlist
      have ha : a ∈ addFrom := by
        rw [← CpuSet.mem_list, hlist]
        exact List.mem_cons_self a rest2
      have hadded' : added ∪ {a} ⊆ f₀ :=
        Finset.union_subset hadded (Finset.singleton_subset_iff.mpr (haddFrom ha))
      split
      · exact Finset.union_subset hadded' haddFrom
      · split
        · exact hadded'
        · exact ih _ _ _ _ _ _ _ hadded'
            ((hnext _ _ 1).trans ((Finset.sdiff_subset).trans hfree))
            ((Finset.sdiff_subset).trans hfree)

theorem fillLoop_subset (negDelta : ℕ) :
    ∀ (l : List ℕ) (forSure : CpuSet),
      fillLoop negDelta forSure l ⊆ forSure ∪ l.toFinset := by
  intro l
  induction l with
  | nil => intro forSure; simp [fillLoop]
  | cons c rest ih =>
    intro forSure
    simp only [fillLoop]
    split
    · exact Finset.subset_union_left
    · refine (ih (insert c forSure)).trans ?_
      intro x hx
      rcases Finset.mem_union.mp hx with hx | hx
      · rcases Finset.mem_insert.mp hx with hx | hx
        · subst hx; simp
        · exact Finset.mem_union_left _ hx
      · simp [hx]

theorem forSureMaybeSplit_subset (score : ℕ → ℕ) (maxHints : ℕ) :
    ∀ l : List ℕ,
      (forSureMaybeSplit score maxHints l).1 ⊆ l.toFinset ∧
      (forSureMaybeSplit score maxHints l).2 ⊆ l.toFinset := by
  intro l
  induction l with
  | nil => simp [forSureMaybeSplit]
  | cons c rest ih =>
    simp only [forSureMaybeSplit]
    split
    · split
      · constructor
        · intro x hx
          rcases Finset.mem_insert.mp hx with hx | hx
          · subst hx; simp
          · simp only [List.toFinset_cons]
            exact Finset.mem_insert_of_mem (ih.1 hx)
        · intro x hx
          simp only [List.toFinset_cons]
          exact Finset.mem_insert_of_mem (ih.2 hx)
      · constructor
        · intro x hx
          simp only [List.toFinset_cons]
          exact Finset.mem_insert_of_mem (ih.1 hx)
        · intro x hx
          rcases Finset.mem_insert.mp hx with hx | hx
          · subst hx; simp
          · simp only [List.toFinset_cons]
            exact Finset.mem_insert_of_mem (ih.2 hx)
    · constructor
      · intro x hx; cases Finset.not_mem_empty x hx
      · intro x hx; cases Finset.not_mem_empty x hx

theorem growHintsFold_subset (delta : ℤ) :
    ∀ (l : List CpuSet) (rem f₀ : CpuSet), rem ⊆ f₀ →
      (l.foldl (fun rem cpus =>
        if delta ≤ ((rem ∩ cpus).card : ℤ) then rem ∩ cpus else rem) rem) ⊆ f₀ := by
  intro l
  induction l with
  | nil => intro rem f₀ h; exact h
  | cons c rest ih =>
    intro rem f₀ h
    simp only [List.foldl_cons]
    by_cases hc : delta ≤ (((rem ∩ c).card : ℕ) : ℤ)
    · rw [if_pos hc]
      exact ih _ _ ((Finset.inter_subset_left).trans h)
    · rw [if_neg hc]
      exact ih _ _ h

/-- Containment along a chain suffix: the candidate pools never leak
CPUs from outside the respective input sets (this holds for error
returns as well). -/
def Contained (σ : CpuSet → List ℕ) (ta : cpuTreeAllocator)
    (l : List cpuResizer) : Prop :=
  ∀ currentCpus freeCpus delta,
    (nextCpuResizer σ ta l currentCpus freeCpus delta).addFrom ⊆ freeCpus ∧
    (nextCpuResizer σ ta l currentCpus freeCpus delta).removeFrom ⊆ currentCpus

theorem contained_now (σ : CpuSet → List ℕ) (ta : cpuTreeAllocator)
    (rest : List cpuResizer) : Contained σ ta (.now :: rest) := by
  intro c f d
  exact ⟨Finset.Subset.refl f, Finset.Subset.refl c⟩

theorem contained_maxLocalSet (σ : CpuSet → List ℕ) (ta : cpuTreeAllocator)
    (rest : List cpuResizer) (h : Contained σ ta rest) :
    Contained σ ta (.maxLocalSet :: rest) := by
  intro c f d
  simp only [nextCpuResizer]
  split
  · exact ⟨Finset.Subset.refl f, Finset.Subset.refl c⟩
  · rename_i best tail hsorted
    have hbest : best ∈ ToAttributedSlice ta.root c f (maxLocalFilter d) := by
      have hmem : best ∈ (if 0 < d then
          goSortSlice (sorterAllocate ta.options.topologyBalancing)
            (ToAttributedSlice ta.root c f (maxLocalFilter d))
        else goSortSlice (sorterRelease ta.options.topologyBalancing)
            (ToAttributedSlice ta.root c f (maxLocalFilter d))) := by
        rw [hsorted]
        exact List.mem_cons_self best tail
      by_cases hd : 0 < d
      · rw [if_pos hd] at hmem
        exact mem_goSortSlice.mp hmem
      · rw [if_neg hd] at hmem
        exact mem_goSortSlice.mp hmem
    obtain ⟨hsc, hsf, -, -, -, -, -⟩ :=
      ToAttributedSlice_mem_facts ta.root c f (maxLocalFilter d) best hbest
    exact ⟨(h _ _ _).1.trans hsf, (h _ _ _).2.trans hsc⟩

theorem contained_oneAtATime (σ : CpuSet → List ℕ) (ta : cpuTreeAllocator)
    (rest : List cpuResizer) (h : Contained σ ta rest) :
    Contained σ ta (.oneAtATime :: rest) := by
  intro c f d
  simp only [nextCpuResizer]
  split
  · split
    · exact h c f d
    · constructor
      · exact oneAtATimeAddLoop_addFrom_subset _ (fun c f d => (h c f d).1) f _ _ _
          (h c f d).1 _ _ _ _ _ _ (Finset.empty_subset f) (Finset.Subset.refl f)
      · rw [oneAtATimeAddLoop_removeFrom]
        exact (h c f d).2
  · constructor
    · rw [oneAtATimeRemoveLoop_addFrom]
      exact Finset.empty_subset f
    · exact oneAtATimeRemoveLoop_removeFrom_subset _ (fun c f d => (h c f d).2) c _ _
        _ _ _ _ _ (Finset.empty_subset c) (Finset.Subset.refl c)

theorem contained_withDevices (σ : CpuSet → List ℕ) (hσ : validUnsorted σ)
    (ta : cpuTreeAllocator) (rest : List cpuResizer) (h : Contained σ ta rest) :
    Contained σ ta (.withDevices :: rest) := by
  intro c f d
  simp only [nextCpuResizer]
  split
  · exact h c f d
  · split
    · refine ⟨(h _ _ _).1.trans ?_, (h _ _ _).2⟩
      exact growHintsFold_subset d _ f f (Finset.Subset.refl f)
    · split
      · split
        · exact ⟨Finset.Subset.refl f, Finset.Subset.refl c⟩
        · split
          · exact ⟨Finset.Subset.refl f, Finset.Subset.refl c⟩
          · rename_i pivot hpiv
            constructor
            · exact Finset.Subset.refl f
            · have hsortsub :
                  (goSortSlice (fun a b =>
                      decide (buildHints σ (allCloseCpuSets ta f) c a <
                        buildHints σ (allCloseCpuSets ta f) c b)) (σ c)).toFinset
                    ⊆ c := by
                intro x hx
                rw [List.mem_toFinset, mem_goSortSlice] at hx
                exact (hσ.mem).mp hx
              refine (fillLoop_subset _ _ _).trans (Finset.union_subset ?_ ?_)
              · exact ((forSureMaybeSplit_subset _ _ _).1.trans hsortsub)
              · intro x hx
                rw [List.mem_toFinset, hσ.mem] at hx
                have hx2 := (h _ _ _).2 hx
                exact hsortsub ((forSureMaybeSplit_subset _ _ _).2 hx2)
      · exact ⟨Finset.Subset.refl f, Finset.Subset.refl c⟩

theorem contained_onlyIfNecessary (σ : CpuSet → List ℕ) (ta : cpuTreeAllocator)
    (rest : List cpuResizer) (h : Contained σ ta rest) :
    Contained σ ta (.onlyIfNecessary :: rest) := by
  intro c f d
  simp only [nextCpuResizer]
  split
  · exact ⟨Finset.empty_subset f, Finset.empty_subset c⟩
  · split
    · split
      · exact ⟨Finset.Subset.refl f, Finset.empty_subset c⟩
      · split
        · exact ⟨Finset.Subset.refl f, Finset.empty_subset c⟩
        · exact h c f d
    · split
      · exact ⟨Finset.empty_subset f, Finset.Subset.refl c⟩
      · split
        · exact ⟨Finset.empty_subset f, Finset.Subset.refl c⟩
        · exact h c f d

theorem containedAdd_withDynamicDeviceHints (σ : CpuSet → List ℕ)
    (ta : cpuTreeAllocator) (rest : List cpuResizer) (h : Contained σ ta rest) :
    ∀ currentCpus freeCpus delta,
      (nextCpuResizer σ ta (.withDynamicDeviceHints :: rest)
        currentCpus freeCpus delta).addFrom ⊆ freeCpus := by
  intro c f d
  simp only [nextCpuResizer]
  split
  · exact (h c f d).1
  · split
    · exact (h c f d).1
    · split
      · exact (h c f d).1
      · exact dynHintsLoop_addFrom_subset _ (fun c f d => (h c f d).1) f _ _
          _ _ _ _ _ _ _ (Finset.empty_subset f) (h c f d).1
          (Finset.Subset.refl f)

theorem containedRemCond_withDynamicDeviceHints (σ : CpuSet → List ℕ)
    (ta : cpuTreeAllocator) (rest : List cpuResizer) (h : Contained σ ta rest) :
    ∀ currentCpus freeCpus delta,
      (ta.options.deviceUpdateOnEveryCpu = false ∨ delta ≤ 0) →
      (nextCpuResizer σ ta (.withDynamicDeviceHints :: rest)
        currentCpus freeCpus delta).removeFrom ⊆ currentCpus := by
  intro c f d hcond
  simp only [nextCpuResizer]
  split
  · exact (h c f d).2
  · rename_i hset
    rcases hcond with hcond | hcond
    · exact absurd hcond hset
    · rw [if_pos hcond]
      exact (h c f d).2

theorem containedAdd_onlyIfNecessary (σ : CpuSet → List ℕ)
    (ta : cpuTreeAllocator) (rest : List cpuResizer)
    (h : ∀ currentCpus freeCpus delta,
      (nextCpuResizer σ ta rest currentCpus freeCpus delta).addFrom ⊆ freeCpus) :
    ∀ currentCpus freeCpus delta,
      (nextCpuResizer σ ta (.onlyIfNecessary :: rest)
        currentCpus freeCpus delta).addFrom ⊆ freeCpus := by
  intro c f d
  simp only [nextCpuResizer]
  split
  · exact Finset.empty_subset f
  · split
    · split
      · exact Finset.Subset.refl f
      · split
        · exact Finset.Subset.refl f
        · exact h c f d
    · split
      · exact Finset.empty_subset f
      · split
        · exact Finset.empty_subset f
        · exact h c f d

theorem containedRemCond_onlyIfNecessary (σ : CpuSet → List ℕ)
    (ta : cpuTreeAllocator) (rest : List cpuResizer)
    (h : ∀ currentCpus freeCpus delta,
      (ta.options.deviceUpdateOnEveryCpu = false ∨ delta ≤ 0) →
      (nextCpuResizer σ ta rest currentCpus freeCpus delta).removeFrom ⊆ currentCpus) :
    ∀ currentCpus freeCpus delta,
      (ta.options.deviceUpdateOnEveryCpu = false ∨ delta ≤ 0) →
      (nextCpuResizer σ ta (.onlyIfNecessary :: rest)
        currentCpus freeCpus delta).removeFrom ⊆ currentCpus := by
  intro c f d hcond
  simp only [nextCpuResizer]
  split
  · exact Finset.empty_subset c
  · split
    · split
      · exact Finset.empty_subset c
      · split
        · exact Finset.empty_subset c
        · exact h c f d hcond
    · split
      · exact Finset.Subset.refl c
      · split
        · exact Finset.Subset.refl c
        · exact h c f d hcond

theorem contained_chainAfterDyn (σ : CpuSet → List ℕ) (hσ : validUnsorted σ)
    (ta : cpuTreeAllocator) :
    Contained σ ta [.withDevices, .oneAtATime, .maxLocalSet, .now] :=
  contained_withDevices σ hσ ta _
    (contained_oneAtATime σ ta _
      (contained_maxLocalSet σ ta _
        (contained_now σ ta _)))

/-- C4 (amended): for every call whose current and free sets are
disjoint, the grow pool satisfies both containment and disjointness
unconditionally (error or not); the shrink pool satisfies them whenever
the dynamic device-update callback is unset or `delta ≤ 0`.  (With the
callback set and `delta > 0` the dynamic-hints stage commits CPUs into
its working current set, so the shrink pool can leak such CPUs — see
the counterexample.) -/
theorem C4_containment_disjointness (σ : CpuSet → List ℕ)
    (hσ : validUnsorted σ) (ta : cpuTreeAllocator)
    (currentCpus freeCpus : CpuSet) (delta : ℤ)
    (hdisj : currentCpus ∩ freeCpus = ∅) :
    (ResizeCpus σ ta currentCpus freeCpus delta).addFrom ⊆ freeCpus ∧
    (ResizeCpus σ ta currentCpus freeCpus delta).addFrom ∩ currentCpus = ∅ ∧
    ((ta.options.deviceUpdateOnEveryCpu = false ∨ delta ≤ 0) →
      (ResizeCpus σ ta currentCpus freeCpus delta).removeFrom ⊆ currentCpus ∧
      (ResizeCpus σ ta currentCpus freeCpus delta).removeFrom ∩ freeCpus = ∅) := by
  have hbase := contained_chainAfterDyn σ hσ ta
  have hadd := containedAdd_onlyIfNecessary σ ta _
    (containedAdd_withDynamicDeviceHints σ ta _ hbase)
    currentCpus freeCpus delta
  have hrem := containedRemCond_onlyIfNecessary σ ta _
    (containedRemCond_withDynamicDeviceHints σ ta _ hbase)
    currentCpus freeCpus delta
  refine ⟨hadd, ?_, fun hcond => ⟨hrem hcond, ?_⟩⟩
  · rw [Finset.eq_empty_iff_forall_not_mem]
    intro x hx
    rw [Finset.mem_inter] at hx
    have hxf : x ∈ freeCpus := hadd hx.1
    have : x ∈ currentCpus ∩ freeCpus := Finset.mem_inter.mpr ⟨hx.2, hxf⟩
    rw [hdisj] at this
    exact Finset.not_mem_empty x this
  · rw [Finset.eq_empty_iff_forall_not_mem]
    intro x hx
    rw [Finset.mem_inter] at hx
    have hxc : x ∈ currentCpus := hrem hcond hx.1
    have : x ∈ currentCpus ∩ freeCpus := Finset.mem_inter.mpr ⟨hxc, hx.2⟩
    rw [hdisj] at this
    exact Finset.not_mem_empty x this

theorem CpuSet.ne_empty_of_list {s : CpuSet} {l : List ℕ}
    (h : CpuSet.list s = l) (hne : l ≠ []) : ¬ (s = ∅) := by
  intro he
  rw [he] at h
  exact hne h.symm

/-- Three-CPU flat tree for the dynamic-hints counterexample. -/
def cbTree : cpuTreeNode := .node "sys" .system {0, 1, 2} []

/-- Allocator over `cbTree` with the device-update callback set. -/
def cbTa : cpuTreeAllocator := ⟨⟨false, false, [], [], true⟩, cbTree, fun _ => []⟩

/-- C4 counterexample.  First: with overlapping inputs
(`current = free = {0}`, `delta = 1`) the call succeeds with
`add_from = {0}`, violating `add_from ∩ current = ∅`.  Second: with the
device-update callback set, `current = ∅`, `free = {0,1,2}`,
`delta = 2`, the call succeeds with `remove_from = {0}`, violating both
`remove_from ⊆ current` and `remove_from ∩ free = ∅`. -/
theorem C4_counterexample :
    ((ResizeCpus sortedUnsorted soloTa {0} {0} 1).err = none ∧
      ¬ ((ResizeCpus sortedUnsorted soloTa {0} {0} 1).addFrom ∩ {0} = ∅)) ∧
    ((ResizeCpus sortedUnsorted cbTa ∅ {0, 1, 2} 2).err = none ∧
      ¬ ((ResizeCpus sortedUnsorted cbTa ∅ {0, 1, 2} 2).removeFrom ⊆ ∅) ∧
      ¬ ((ResizeCpus sortedUnsorted cbTa ∅ {0, 1, 2} 2).removeFrom ∩ {0, 1, 2} = ∅)) := by
  refine ⟨⟨by decide, ?_⟩, by decide, by decide, ?_⟩
  · exact CpuSet.ne_empty_of_list (l := [0]) (by decide) (by decide)
  · exact CpuSet.ne_empty_of_list (l := [0]) (by decide) (by decide)

theorem C4_containment_disjointness_witness :
    (ResizeCpus sortedUnsorted soloTa {1} {2, 3} 1).addFrom ⊆ {2, 3} ∧
    (ResizeCpus sortedUnsorted soloTa {1} {2, 3} 1).addFrom ∩ {1} = ∅ ∧
    ((soloTa.options.deviceUpdateOnEveryCpu = false ∨ (1 : ℤ) ≤ 0) →
      (ResizeCpus sortedUnsorted soloTa {1} {2, 3} 1).removeFrom ⊆ {1} ∧
      (ResizeCpus sortedUnsorted soloTa {1} {2, 3} 1).removeFrom ∩ {2, 3} = ∅) :=
  C4_containment_disjointness sortedUnsorted validUnsorted_sortedUnsorted soloTa
    {1} {2, 3} 1 (CpuSet.list_inj (by decide))

theorem oneAtATimeAddLoop_card (next : CpuSet → CpuSet → ℤ → resizeResult)
    (ssAdd ssRemove : CpuSet) (delta : ℕ) :
    ∀ (left : ℕ) (acc cur free : CpuSet) (calls : List CpuSet) (ce : Bool),
      left ≤ delta → acc.card = delta - left →
      (oneAtATimeAddLoop next ssAdd ssRemove delta left acc cur free calls
        ce).err = none →
      (oneAtATimeAddLoop next ssAdd ssRemove delta left acc cur free calls
        ce).addFrom.card = delta := by
  intro left
  induction left with
  | zero =>
    intro acc cur free calls ce hle hcard _
    simpa using hcard
  | succ n ih =>
    intro acc cur free calls ce hle hcard herr
    simp only [oneAtATimeAddLoop] at herr ⊢
    by_cases h1 : (next cur free 1).err.isSome
    · rw [if_pos h1] at herr ⊢
      rw [Option.isSome_iff_exists] at h1
      obtain ⟨e, he⟩ := h1
      rw [he] at herr
      cases herr
    · rw [if_neg h1] at herr ⊢
      by_cases h2 : (next cur free 1).addFrom.card ≠ 1
      · rw [if_pos h2] at herr ⊢
        cases herr
      · rw [if_neg h2] at herr ⊢
        by_cases h3 : (acc ∪ (next cur free 1).addFrom).card ≠ delta - n
        · rw [if_pos h3] at herr ⊢
          cases herr
        · rw [if_neg h3] at herr ⊢
          exact ih _ _ _ _ _ (by omega) (by omega) herr

theorem oneAtATimeRemoveLoop_card (next : CpuSet → CpuSet → ℤ → resizeResult)
    (negDelta : ℕ) :
    ∀ (left : ℕ) (acc cur free : CpuSet) (calls : List CpuSet) (ce : Bool),
      left ≤ negDelta → acc.card = negDelta - left →
      (oneAtATimeRemoveLoop next negDelta left acc cur free calls
        ce).err = none →
      (oneAtATimeRemoveLoop next negDelta left acc cur free calls
        ce).removeFrom.card = negDelta := by
  intro left
  induction left with
  | zero =>
    intro acc cur free calls ce hle hcard _
    simpa using hcard
  | succ n ih =>
    intro acc cur free calls ce hle hcard herr
    simp only [oneAtATimeRemoveLoop] at herr ⊢
    by_cases h1 : (next cur free (-1)).err.isSome
    · rw [if_pos h1] at herr ⊢
      rw [Option.isSome_iff_exists] at h1
      obtain ⟨e, he⟩ := h1
      rw [he] at herr
      cases herr
    · rw [if_neg h1] at herr ⊢
      by_cases h2 : (next cur free (-1)).removeFrom.card ≠ 1
      · rw [if_pos h2] at herr ⊢
        cases herr
      · rw [if_neg h2] at herr ⊢
        by_cases h3 : (acc ∪ (next cur free (-1)).removeFrom).card ≠ negDelta - n
        · rw [if_pos h3] at herr ⊢
          cases herr
        · rw [if_neg h3] at herr ⊢
          exact ih _ _ _ _ _ (by omega) (by omega) herr

theorem oneAtATimeRemoveLoop_card_le (next : CpuSet → CpuSet → ℤ → resizeResult)
    (negDelta : ℕ) :
    ∀ (left : ℕ) (acc cur free : CpuSet) (calls : List CpuSet) (ce : Bool),
      left ≤ negDelta → acc.card = negDelta - left →
      (oneAtATimeRemoveLoop next negDelta left acc cur free calls
        ce).removeFrom.card ≤ negDelta := by
  intro left
  induction left with
  | zero =>
    intro acc cur free calls ce hle hcard
    simp only [oneAtATimeRemoveLoop]
    omega
  | succ n ih =>
    intro acc cur free calls ce hle hcard
    simp only [oneAtATimeRemoveLoop]
    by_cases h1 : (next cur free (-1)).err.isSome
    · rw [if_pos h1]
      dsimp only
      omega
    · rw [if_neg h1]
      by_cases h2 : (next cur free (-1)).removeFrom.card ≠ 1
      · rw [if_pos h2]
        dsimp only
        omega
      · rw [if_neg h2]
        by_cases h3 : (acc ∪ (next cur free (-1)).removeFrom).card ≠ negDelta - n
        · rw [if_pos h3]
          dsimp only
          omega
        · rw [if_neg h3]
          exact ih _ _ _ _ _ (by omega) (by omega)

theorem sizeLB_S4 (σ : CpuSet → List ℕ) (ta : cpuTreeAllocator)
    (currentCpus freeCpus : CpuSet) (delta : ℤ)
    (herr : (nextCpuResizer σ ta [.maxLocalSet, .now]
      currentCpus freeCpus delta).err = none) :
    (0 < delta → delta.toNat ≤ (nextCpuResizer σ ta [.maxLocalSet, .now]
      currentCpus freeCpus delta).addFrom.card) ∧
    (delta < 0 → (-delta).toNat ≤ (nextCpuResizer σ ta [.maxLocalSet, .now]
      currentCpus freeCpus delta).removeFrom.card) := by
  revert herr
  simp only [nextCpuResizer]
  split
  · intro herr
    simp at herr
  · rename_i best tail hsorted
    intro _
    dsimp only
    have hbest : best ∈ ToAttributedSlice ta.root currentCpus freeCpus
        (maxLocalFilter delta) := by
      have hmem : best ∈ (if 0 < delta then
          goSortSlice (sorterAllocate ta.options.topologyBalancing)
            (ToAttributedSlice ta.root currentCpus freeCpus (maxLocalFilter delta))
        else goSortSlice (sorterRelease ta.options.topologyBalancing)
            (ToAttributedSlice ta.root currentCpus freeCpus (maxLocalFilter delta))) := by
        rw [hsorted]
        exact List.mem_cons_self best tail
      by_cases hd : 0 < delta
      · rw [if_pos hd] at hmem
        exact mem_goSortSlice.mp hmem
      · rw [if_neg hd] at hmem
        exact mem_goSortSlice.mp hmem
    obtain ⟨-, -, hcc, hfc, hfil, -, -⟩ :=
      ToAttributedSlice_mem_facts ta.root currentCpus freeCpus
        (maxLocalFilter delta) best hbest
    rw [maxLocalFilter] at hfil
    constructor
    · intro hd
      by_cases hlow : (best.freeCpuCount : ℤ) - delta < 0
      · rw [if_pos ⟨hd, hlow⟩] at hfil
        cases hfil
      · omega
    · intro hd
      rw [if_neg (by omega)] at hfil
      by_cases hlow : (best.currentCpuCount : ℤ) + delta < 0
      · rw [if_pos ⟨hd, hlow⟩] at hfil
        cases hfil
      · omega

theorem nextCpuResizer_oneAtATime (σ : CpuSet → List ℕ) (ta : cpuTreeAllocator)
    (rest : List cpuResizer) (currentCpus freeCpus : CpuSet) (delta : ℤ) :
    nextCpuResizer σ ta (.oneAtATime :: rest) currentCpus freeCpus delta =
      if 0 < delta then
        let res := nextCpuResizer σ ta rest currentCpus freeCpus delta
        if ta.options.preferSpreadOnPhysicalCores = false
            ∨ (res.addFrom.card : ℤ) = delta then res
        else
          oneAtATimeAddLoop (fun c f d => nextCpuResizer σ ta rest c f d)
            res.addFrom res.removeFrom delta.toNat delta.toNat ∅
            currentCpus freeCpus res.calls res.consultedEmpty
      else
        oneAtATimeRemoveLoop (fun c f d => nextCpuResizer σ ta rest c f d)
          (goNeg delta).toNat (goNeg delta).toNat ∅ currentCpus freeCpus [] false := rfl

theorem nextCpuResizer_withDevices (σ : CpuSet → List ℕ) (ta : cpuTreeAllocator)
    (rest : List cpuResizer) (currentCpus freeCpus : CpuSet) (delta : ℤ) :
    nextCpuResizer σ ta (.withDevices :: rest) currentCpus freeCpus delta =
      (let all := allCloseCpuSets ta freeCpus
      if all.length = 0 then nextCpuResizer σ ta rest currentCpus freeCpus delta
      else if 0 < delta then
        let remainingFreeCpus := (all.flatMap id).foldl
          (fun rem cpus =>
            if delta ≤ ((rem ∩ cpus).card : ℤ) then rem ∩ cpus else rem)
          freeCpus
        nextCpuResizer σ ta rest currentCpus remainingFreeCpus delta
      else if delta < 0 then
        let score := buildHints σ all currentCpus
        let leastHintedCpus :=
          goSortSlice (fun a b => decide (score a < score b)) (σ currentCpus)
        if goNeg delta < 0 then ⟨freeCpus, currentCpus, some .indexPanic, [], false⟩
        else
        match leastHintedCpus.get? (goNeg delta).toNat with
        | none => ⟨freeCpus, currentCpus, some .indexPanic, [], false⟩
        | some pivot =>
          let maxHints := score pivot
          let sm := forSureMaybeSplit score maxHints leastHintedCpus
          let remainingDelta := delta + (sm.1.card : ℤ)
          let res := nextCpuResizer σ ta rest sm.2 freeCpus remainingDelta
          let filled := fillLoop (goNeg delta).toNat sm.1 (σ res.removeFrom)
          ⟨freeCpus, filled, res.err, res.calls, res.consultedEmpty⟩
      else ⟨freeCpus, currentCpus, none, [], false⟩) := rfl

theorem nextCpuResizer_withDynamicDeviceHints (σ : CpuSet → List ℕ)
    (ta : cpuTreeAllocator) (rest : List cpuResizer)
    (currentCpus freeCpus : CpuSet) (delta : ℤ) :
    nextCpuResizer σ ta (.withDynamicDeviceHints :: rest) currentCpus freeCpus delta =
      (if ta.options.deviceUpdateOnEveryCpu = false then
        nextCpuResizer σ ta rest currentCpus freeCpus delta
      else if delta ≤ 0 then
        let res := nextCpuResizer σ ta rest currentCpus freeCpus delta
        { res with calls := currentCpus :: res.calls }
      else
        let res := nextCpuResizer σ ta rest currentCpus freeCpus delta
        if res.err.isSome ∨ (res.addFrom.card : ℤ) < delta then
          { res with calls := currentCpus :: res.calls }
        else
          dynHintsLoop (fun c f d => nextCpuResizer σ ta rest c f d) delta
            delta.toNat ∅ res.addFrom res.removeFrom currentCpus freeCpus
            (currentCpus :: res.calls) res.consultedEmpty) := rfl

theorem nextCpuResizer_onlyIfNecessary (σ : CpuSet → List ℕ)
    (ta : cpuTreeAllocator) (rest : List cpuResizer)
    (currentCpus freeCpus : CpuSet) (delta : ℤ) :
    nextCpuResizer σ ta (.onlyIfNecessary :: rest) currentCpus freeCpus delta =
      (if delta = 0 then ⟨∅, ∅, none, [], false⟩
      else if 0 < delta then
        if (freeCpus.card : ℤ) < delta then
          ⟨freeCpus, ∅, some .notEnoughFreeCpus, [], false⟩
        else if (freeCpus.card : ℤ) = delta then ⟨freeCpus, ∅, none, [], false⟩
        else nextCpuResizer σ ta rest currentCpus freeCpus delta
      else
        if (currentCpus.card : ℤ) < goNeg delta then
          ⟨∅, currentCpus, some .notEnoughCurrentCpus, [], false⟩
        else if (currentCpus.card : ℤ) = goNeg delta then ⟨∅, currentCpus, none, [], false⟩
        else nextCpuResizer σ ta rest currentCpus freeCpus delta) := rfl

theorem sizeLB_S3 (σ : CpuSet → List ℕ) (ta : cpuTreeAllocator)
    (currentCpus freeCpus : CpuSet) (delta : ℤ)
    (herr : (nextCpuResizer σ ta [.oneAtATime, .maxLocalSet, .now]
      currentCpus freeCpus delta).err = none) :
    (0 < delta → delta.toNat ≤ (nextCpuResizer σ ta
      [.oneAtATime, .maxLocalSet, .now] currentCpus freeCpus delta).addFrom.card) ∧
    (delta < 0 → (goNeg delta).toNat ≤ (nextCpuResizer σ ta
      [.oneAtATime, .maxLocalSet, .now] currentCpus freeCpus delta).removeFrom.card) := by
  revert herr
  rw [nextCpuResizer_oneAtATime]
  by_cases hd : 0 < delta
  · rw [if_pos hd]
    dsimp only
    by_cases hpass : ta.options.preferSpreadOnPhysicalCores = false ∨
        ((nextCpuResizer σ ta [.maxLocalSet, .now] currentCpus freeCpus
          delta).addFrom.card : ℤ) = delta
    · rw [if_pos hpass]
      intro herr
      refine ⟨fun _ => ?_, fun hneg => absurd hneg (by omega)⟩
      exact (sizeLB_S4 σ ta currentCpus freeCpus delta herr).1 hd
    · rw [if_neg hpass]
      intro herr
      refine ⟨fun _ => ?_, fun hneg => absurd hneg (by omega)⟩
      have := oneAtATimeAddLoop_card _ _ _ delta.toNat delta.toNat ∅
        currentCpus freeCpus _ _ (le_refl _) (by simp) herr
      omega
  · rw [if_neg hd]
    intro herr
    refine ⟨fun hpos => absurd hpos hd, fun hneg => ?_⟩
    have := oneAtATimeRemoveLoop_card _ (goNeg delta).toNat (goNeg delta).toNat ∅
      currentCpus freeCpus [] false (le_refl _) (by simp) herr
    omega

theorem removeExact_S3 (σ : CpuSet → List ℕ) (ta : cpuTreeAllocator)
    (currentCpus freeCpus : CpuSet) (delta : ℤ) (hd : delta ≤ 0)
    (herr : (nextCpuResizer σ ta [.oneAtATime, .maxLocalSet, .now]
      currentCpus freeCpus delta).err = none) :
    (nextCpuResizer σ ta [.oneAtATime, .maxLocalSet, .now]
      currentCpus freeCpus delta).removeFrom.card = (goNeg delta).toNat := by
  revert herr
  rw [nextCpuResizer_oneAtATime, if_neg (by omega)]
  intro herr
  exact oneAtATimeRemoveLoop_card _ (goNeg delta).toNat (goNeg delta).toNat ∅
    currentCpus freeCpus [] false (le_refl _) (by simp) herr

theorem removeLe_S3 (σ : CpuSet → List ℕ) (ta : cpuTreeAllocator)
    (currentCpus freeCpus : CpuSet) (delta : ℤ) (hd : delta ≤ 0) :
    (nextCpuResizer σ ta [.oneAtATime, .maxLocalSet, .now]
      currentCpus freeCpus delta).removeFrom.card ≤ (goNeg delta).toNat := by
  rw [nextCpuResizer_oneAtATime, if_neg (by omega)]
  exact oneAtATimeRemoveLoop_card_le _ (goNeg delta).toNat (goNeg delta).toNat ∅
    currentCpus freeCpus [] false (le_refl _) (by simp)

theorem goNeg_toNat_le (d : ℤ) : (goNeg d).toNat ≤ (-d).toNat := by
  unfold goNeg
  split
  · rename_i h
    rw [h]
    decide
  · exact le_refl _

theorem forSureMaybeSplit_eq_filter (score : ℕ → ℕ) (m : ℕ) :
    ∀ l : List ℕ, l.Pairwise (fun a b => score a ≤ score b) →
      forSureMaybeSplit score m l =
        ((l.filter (fun c => decide (score c < m))).toFinset,
         (l.filter (fun c => decide (score c = m))).toFinset) := by
  intro l
  induction l with
  | nil => intro _; rfl
  | cons c rest ih =>
    intro hpw
    rw [List.pairwise_cons] at hpw
    obtain ⟨hc, hrest⟩ := hpw
    simp only [forSureMaybeSplit]
    by_cases h1 : score c ≤ m
    · rw [if_pos h1, ih hrest]
      by_cases h2 : score c < m
      · rw [if_pos h2]
        rw [List.filter_cons_of_pos (by simpa using h2),
          List.filter_cons_of_neg (by simp; omega)]
        simp [List.toFinset_cons]
      · have heq : score c = m := by omega
        rw [if_neg h2]
        rw [List.filter_cons_of_neg (by simpa using h2),
          List.filter_cons_of_pos (by simpa using heq)]
        simp [List.toFinset_cons]
    · rw [if_neg h1]
      have hcfilter1 : (c :: rest).filter (fun c => decide (score c < m)) = [] := by
        rw [List.filter_eq_nil_iff]
        intro x hx
        rcases List.mem_cons.mp hx with hx | hx
        · subst hx; simp; omega
        · have := hc x hx; simp; omega
      have hcfilter2 : (c :: rest).filter (fun c => decide (score c = m)) = [] := by
        rw [List.filter_eq_nil_iff]
        intro x hx
        rcases List.mem_cons.mp hx with hx | hx
        · subst hx; simp; omega
        · have := hc x hx; simp; omega
      rw [hcfilter1, hcfilter2]
      rfl

theorem sorted_filter_lt_pivot (score : ℕ → ℕ) (l : List ℕ)
    (hs : l.Pairwise (fun a b => score a ≤ score b)) (k : ℕ) (pivot : ℕ)
    (hget : l.get? k = some pivot) :
    (l.filter (fun c => decide (score c < score pivot))).length ≤ k := by
  have hk : k < l.length := by
    by_contra hk
    rw [List.get?_eq_none.mpr (by omega)] at hget
    cases hget
  have hdropnil : (l.drop k).filter (fun c => decide (score c < score pivot)) = [] := by
    rw [List.filter_eq_nil_iff]
    intro x hx
    rw [List.mem_iff_get] at hx
    obtain ⟨⟨i, hi⟩, hxi⟩ := hx
    have hdl : (l.drop k).length = l.length - k := List.length_drop k l
    have hki : k + i < l.length := by omega
    have hip : pivot = l.get ⟨k, hk⟩ := by
      rw [List.get?_eq_get hk] at hget
      exact (Option.some_inj.mp hget).symm
    have hxl : x = l.get ⟨k + i, hki⟩ := by
      rw [← hxi]
      rw [List.get_drop]
    have hle : score pivot ≤ score x := by
      rcases Nat.eq_zero_or_pos i with hi0 | hipos
      · subst hi0
        rw [hxl, hip]
        exact le_of_eq (congrArg score (by congr 1))
      · have := (List.pairwise_iff_get.mp hs) ⟨k, hk⟩ ⟨k + i, hki⟩ (by simp; omega)
        rw [hip, hxl]
        exact this
    simp
    omega
  conv_lhs => rw [← List.take_append_drop k l]
  rw [List.filter_append, List.length_append, hdropnil]
  simp only [List.length_nil, Nat.add_zero]
  calc (List.filter (fun c => decide (score c < score pivot)) (l.take k)).length
      ≤ (l.take k).length := List.length_filter_le _ _
    _ ≤ k := by simp

theorem fillLoop_card_ge (n : ℕ) :
    ∀ (l : List ℕ) (forSure : CpuSet), (∀ x ∈ l, x ∉ forSure) → l.Nodup →
      n ≤ forSure.card + l.length → n ≤ (fillLoop n forSure l).card := by
  intro l
  induction l with
  | nil =>
    intro forSure _ _ hle
    simp only [List.length_nil] at hle
    simp only [fillLoop]
    omega
  | cons c rest ih =>
    intro forSure hdisj hnd hle
    simp only [fillLoop]
    by_cases h1 : n ≤ forSure.card
    · rw [if_pos h1]
      exact h1
    · rw [if_neg h1]
      rw [List.nodup_cons] at hnd
      have hcard : (insert c forSure).card = forSure.card + 1 :=
        Finset.card_insert_of_not_mem (hdisj c (List.mem_cons_self c rest))
      refine ih (insert c forSure) ?_ hnd.2 ?_
      · intro x hx hmem
        rcases Finset.mem_insert.mp hmem with hxc | hxf
        · subst hxc; exact hnd.1 hx
        · exact hdisj x (List.mem_cons_of_mem c hx) hxf
      · rw [hcard]
        simp only [List.length_cons] at hle
        omega

theorem goSortSlice_score_sorted (score : ℕ → ℕ) (l : List ℕ) :
    (goSortSlice (fun a b => decide (score a < score b)) l).Pairwise
      (fun a b => score a ≤ score b) := by
  have htot : ∀ a b : ℕ, ((decide (score b < score a)) = false) ∨
      ((decide (score a < score b)) = false) := by
    intro a b
    by_cases h : score b < score a
    · right; simp; omega
    · left; simp [h]
  have hsorted := @List.sorted_insertionSort ℕ
    (fun a b => (decide (score b < score a)) = false)
    (fun a b => instDecidableEqBool _ _) ⟨fun a b => htot a b⟩
    ⟨fun a b c hab hbc => by simp at hab hbc ⊢; omega⟩ l
  refine List.Pairwise.imp ?_ hsorted
  intro a b hab
  simp at hab
  omega

theorem goSortSlice_score_nodup {σ : CpuSet → List ℕ} (hσ : validUnsorted σ)
    (score : ℕ → ℕ) (s : CpuSet) :
    (goSortSlice (fun a b => decide (score a < score b)) (σ s)).Nodup :=
  (List.perm_insertionSort _ _).nodup_iff.mpr (hσ.nodup s)

theorem contained_chainAfterDevices (σ : CpuSet → List ℕ)
    (ta : cpuTreeAllocator) :
    Contained σ ta [.oneAtATime, .maxLocalSet, .now] :=
  contained_oneAtATime σ ta _
    (contained_maxLocalSet σ ta _ (contained_now σ ta _))

theorem withDevices_shrink_card (σ : CpuSet → List ℕ) (hσ : validUnsorted σ)
    (ta : cpuTreeAllocator) (freeCpus : CpuSet) (score : ℕ → ℕ) (L : List ℕ)
    (hsorted : L.Pairwise (fun a b => score a ≤ score b)) (hnodupL : L.Nodup)
    (delta : ℤ) (hmin : goMinInt < delta) (hdneg : delta < 0) (pivot : ℕ)
    (hpiv : L.get? (-delta).toNat = some pivot)
    (herr : (nextCpuResizer σ ta [.oneAtATime, .maxLocalSet, .now]
      (forSureMaybeSplit score (score pivot) L).2 freeCpus
      (delta + ((forSureMaybeSplit score (score pivot) L).1.card : ℤ))).err = none) :
    (-delta).toNat ≤ (fillLoop (-delta).toNat (forSureMaybeSplit score (score pivot) L).1
      (σ (nextCpuResizer σ ta [.oneAtATime, .maxLocalSet, .now]
        (forSureMaybeSplit score (score pivot) L).2 freeCpus
        (delta + ((forSureMaybeSplit score (score pivot) L).1.card : ℤ))).removeFrom)).card := by
  have hsplit := forSureMaybeSplit_eq_filter score (score pivot) L hsorted
  rw [hsplit] at herr ⊢
  dsimp only at herr ⊢
  have hcard1 : (List.filter (fun c =>
      decide (score c < score pivot)) L).toFinset.card ≤ (-delta).toNat := by
    rw [List.toFinset_card_of_nodup (List.Nodup.filter _ hnodupL)]
    exact sorted_filter_lt_pivot score L hsorted (-delta).toNat pivot hpiv
  have hrd : delta + ((List.filter (fun c =>
      decide (score c < score pivot)) L).toFinset.card : ℤ) ≤ 0 := by omega
  have hffm := removeExact_S3 σ ta _ freeCpus _ hrd herr
  have hgn2 : goNeg (delta + ((List.filter (fun c =>
      decide (score c < score pivot)) L).toFinset.card : ℤ)) =
      -(delta + ((List.filter (fun c =>
      decide (score c < score pivot)) L).toFinset.card : ℤ)) := by
    unfold goNeg
    rw [if_neg (by omega)]
  rw [hgn2] at hffm
  have hsub := (contained_chainAfterDevices σ ta
    (List.filter (fun c => decide (score c = score pivot)) L).toFinset freeCpus
    (delta + ((List.filter (fun c =>
      decide (score c < score pivot)) L).toFinset.card : ℤ))).2
  refine fillLoop_card_ge (-delta).toNat _ _ ?_ (hσ.nodup _) ?_
  · intro x hx hmem
    have hx2 : x ∈ (nextCpuResizer σ ta [.oneAtATime, .maxLocalSet, .now]
        (List.filter (fun c => decide (score c = score pivot)) L).toFinset freeCpus
        (delta + ((List.filter (fun c =>
          decide (score c < score pivot)) L).toFinset.card : ℤ))).removeFrom :=
      hσ.mem.mp hx
    have hx3 := hsub hx2
    rw [List.mem_toFinset, List.mem_filter] at hmem hx3
    simp only [decide_eq_true_eq] at hmem hx3
    omega
  · rw [hσ.length _, hffm]
    omega

theorem sizeLB_S2 (σ : CpuSet → List ℕ) (hσ : validUnsorted σ)
    (ta : cpuTreeAllocator) (currentCpus freeCpus : CpuSet) (delta : ℤ)
    (hmin : goMinInt ≤ delta)
    (herr : (nextCpuResizer σ ta [.withDevices, .oneAtATime, .maxLocalSet, .now]
      currentCpus freeCpus delta).err = none) :
    (0 < delta → delta.toNat ≤ (nextCpuResizer σ ta
      [.withDevices, .oneAtATime, .maxLocalSet, .now]
      currentCpus freeCpus delta).addFrom.card) ∧
    (delta < 0 → (goNeg delta).toNat ≤ (nextCpuResizer σ ta
      [.withDevices, .oneAtATime, .maxLocalSet, .now]
      currentCpus freeCpus delta).removeFrom.card) := by
  revert herr
  rw [nextCpuResizer_withDevices]
  dsimp only
  by_cases hall : (allCloseCpuSets ta freeCpus).length = 0
  · rw [if_pos hall]
    intro herr
    exact sizeLB_S3 σ ta currentCpus freeCpus delta herr
  · rw [if_neg hall]
    by_cases hdpos : 0 < delta
    · rw [if_pos hdpos]
      intro herr
      refine ⟨fun _ => (sizeLB_S3 σ ta currentCpus _ delta herr).1 hdpos,
        fun hneg => absurd hneg (by omega)⟩
    · rw [if_neg hdpos]
      by_cases hdneg : delta < 0
      · rw [if_pos hdneg]
        by_cases hmeq : delta = goMinInt
        · rw [if_pos (by rw [hmeq]; decide)]
          intro herr
          exact absurd herr (by simp)
        · have hgn : goNeg delta = -delta := by
            unfold goNeg
            rw [if_neg hmeq]
          rw [hgn, if_neg (show ¬ -delta < 0 by omega)]
          split
          · intro herr
            exact absurd herr (by simp)
          · rename_i hscrut pivot hpiv
            intro herr
            dsimp only at herr ⊢
            refine ⟨fun h => absurd h hdpos, fun _ => ?_⟩
            exact withDevices_shrink_card σ hσ ta freeCpus _ _
              (goSortSlice_score_sorted
                (buildHints σ (allCloseCpuSets ta freeCpus) currentCpus) (σ currentCpus))
              (goSortSlice_score_nodup hσ
                (buildHints σ (allCloseCpuSets ta freeCpus) currentCpus) currentCpus)
              delta (by omega) hdneg pivot hpiv herr
      · rw [if_neg hdneg]
        intro _
        exact ⟨fun h => absurd h hdpos, fun h => absurd h hdneg⟩

theorem dynHintsLoop_card (next : CpuSet → CpuSet → ℤ → resizeResult) (delta : ℤ)
    (hnext : ∀ c f, (next c f 1).err = none → 1 ≤ (next c f 1).addFrom.card) :
    ∀ (fuel : ℕ) (added addFrom removeFrom cur free : CpuSet)
      (calls : List CpuSet) (ce : Bool),
      (dynHintsLoop next delta fuel added addFrom removeFrom cur free calls ce).err
        = none →
      delta ≤ ((dynHintsLoop next delta fuel added addFrom removeFrom cur free
        calls ce).addFrom.card : ℤ) := by
  intro fuel
  induction fuel with
  | zero =>
    intro added addFrom removeFrom cur free calls ce herr
    exact absurd herr (by simp [dynHintsLoop])
  | succ fuel ih =>
    intro added addFrom removeFrom cur free calls ce herr
    rw [dynHintsLoop] at herr ⊢
    revert herr
    split
    · intro herr
      exact absurd herr (by simp)
    · rename_i addedCpu tail heq
      dsimp only
      by_cases hbrk : delta ≤ (((added ∪ {addedCpu}).card : ℕ) : ℤ)
      · rw [if_pos hbrk]
        intro _
        dsimp only
        calc delta ≤ ((added ∪ {addedCpu}).card : ℤ) := hbrk
          _ ≤ (((added ∪ {addedCpu}) ∪ addFrom).card : ℤ) := by
              exact_mod_cast Finset.card_le_card Finset.subset_union_left
      · rw [if_neg hbrk]
        by_cases hguard : (next (cur ∪ {addedCpu}) (free \ (cur ∪ {addedCpu})) 1).err.isSome
            ∨ (next (cur ∪ {addedCpu}) (free \ (cur ∪ {addedCpu})) 1).addFrom.card < 1
        · rw [if_pos hguard]
          intro herr
          dsimp only at herr
          rcases hguard with hg | hg
          · rw [herr] at hg
            exact absurd hg (by simp)
          · exact absurd (hnext _ _ herr) (by omega)
        · rw [if_neg hguard]
          intro herr
          exact ih _ _ _ _ _ _ _ herr

theorem sizeLB_S1 (σ : CpuSet → List ℕ) (hσ : validUnsorted σ)
    (ta : cpuTreeAllocator) (currentCpus freeCpus : CpuSet) (delta : ℤ)
    (hmin : goMinInt ≤ delta)
    (herr : (nextCpuResizer σ ta
      [.withDynamicDeviceHints, .withDevices, .oneAtATime, .maxLocalSet, .now]
      currentCpus freeCpus delta).err = none) :
    (0 < delta → delta.toNat ≤ (nextCpuResizer σ ta
      [.withDynamicDeviceHints, .withDevices, .oneAtATime, .maxLocalSet, .now]
      currentCpus freeCpus delta).addFrom.card) ∧
    (delta < 0 → (goNeg delta).toNat ≤ (nextCpuResizer σ ta
      [.withDynamicDeviceHints, .withDevices, .oneAtATime, .maxLocalSet, .now]
      currentCpus freeCpus delta).removeFrom.card) := by
  revert herr
  rw [nextCpuResizer_withDynamicDeviceHints]
  dsimp only
  by_cases h1 : ta.options.deviceUpdateOnEveryCpu = false
  · rw [if_pos h1]
    intro herr
    exact sizeLB_S2 σ hσ ta currentCpus freeCpus delta hmin herr
  · rw [if_neg h1]
    by_cases h2 : delta ≤ 0
    · rw [if_pos h2]
      intro herr
      dsimp only at herr ⊢
      exact ⟨fun h => absurd h (by omega),
        fun h => (sizeLB_S2 σ hσ ta currentCpus freeCpus delta hmin herr).2 h⟩
    · rw [if_neg h2]
      by_cases hguard : (nextCpuResizer σ ta
            [.withDevices, .oneAtATime, .maxLocalSet, .now]
            currentCpus freeCpus delta).err.isSome
          ∨ ((nextCpuResizer σ ta [.withDevices, .oneAtATime, .maxLocalSet, .now]
            currentCpus freeCpus delta).addFrom.card : ℤ) < delta
      · rw [if_pos hguard]
        intro herr
        dsimp only at herr
        rcases hguard with hg | hg
        · rw [herr] at hg
          exact absurd hg (by simp)
        · have := (sizeLB_S2 σ hσ ta currentCpus freeCpus delta hmin herr).1 (by omega)
          exact absurd hg (by omega)
      · rw [if_neg hguard]
        intro herr
        have hnext : ∀ c f, (nextCpuResizer σ ta
            [.withDevices, .oneAtATime, .maxLocalSet, .now] c f 1).err = none →
            1 ≤ (nextCpuResizer σ ta [.withDevices, .oneAtATime, .maxLocalSet, .now]
              c f 1).addFrom.card := by
          intro c f herr'
          exact (sizeLB_S2 σ hσ ta c f 1 (by decide) herr').1 (by omega)
        have := dynHintsLoop_card
          (fun c f d => nextCpuResizer σ ta
            [.withDevices, .oneAtATime, .maxLocalSet, .now] c f d)
          delta hnext delta.toNat ∅ _ _ _ _ _ _ herr
        refine ⟨fun _ => by omega, fun h => absurd h (by omega)⟩

/-- C5: for every `ResizeCpus` call on a valid CPU-enumeration oracle that
returns without error with `MinInt64 < delta`, the returned candidate
pools are large enough: on a grow (`0 < delta`) the `addFrom` pool has
at least `delta` CPUs, and on a shrink (`delta < 0`) the `removeFrom`
pool has at least `-delta` CPUs.  At `delta = MinInt64` the Go negation
`-delta` wraps back to `MinInt64`, every stage guard comparing against
it passes vacuously, the one-at-a-time removal loop runs zero rounds,
and the call succeeds with an empty `removeFrom` — see the
counterexample. -/
theorem C5_size_bound (σ : CpuSet → List ℕ) (hσ : validUnsorted σ)
    (ta : cpuTreeAllocator) (currentCpus freeCpus : CpuSet) (delta : ℤ)
    (hmin : goMinInt < delta)
    (herr : (ResizeCpus σ ta currentCpus freeCpus delta).err = none) :
    (0 < delta →
      delta.toNat ≤ (ResizeCpus σ ta currentCpus freeCpus delta).addFrom.card) ∧
    (delta < 0 →
      (-delta).toNat ≤
        (ResizeCpus σ ta currentCpus freeCpus delta).removeFrom.card) := by
  have hgn : goNeg delta = -delta := by
    unfold goNeg
    rw [if_neg (by omega)]
  revert herr
  unfold ResizeCpus resizersChain
  rw [nextCpuResizer_onlyIfNecessary, hgn]
  by_cases h0 : delta = 0
  · rw [if_pos h0]
    intro _
    exact ⟨fun h => absurd h (by omega), fun h => absurd h (by omega)⟩
  · rw [if_neg h0]
    by_cases hpos : 0 < delta
    · rw [if_pos hpos]
      by_cases hlt : (freeCpus.card : ℤ) < delta
      · rw [if_pos hlt]
        intro herr
        exact absurd herr (by simp)
      · rw [if_neg hlt]
        by_cases heq : (freeCpus.card : ℤ) = delta
        · rw [if_pos heq]
          intro _
          exact ⟨fun _ => by dsimp only; omega, fun h => absurd h (by omega)⟩
        · rw [if_neg heq]
          intro herr
          have h1 := sizeLB_S1 σ hσ ta currentCpus freeCpus delta
            (le_of_lt hmin) herr
          rw [hgn] at h1
          exact h1
    · rw [if_neg hpos]
      by_cases hlt : (currentCpus.card : ℤ) < -delta
      · rw [if_pos hlt]
        intro herr
        exact absurd herr (by simp)
      · rw [if_neg hlt]
        by_cases heq : (currentCpus.card : ℤ) = -delta
        · rw [if_pos heq]
          intro _
          exact ⟨fun h => absurd h hpos, fun _ => by dsimp only; omega⟩
        · rw [if_neg heq]
          intro herr
          have h1 := sizeLB_S1 σ hσ ta currentCpus freeCpus delta
            (le_of_lt hmin) herr
          rw [hgn] at h1
          exact h1

/-- C5 counterexample for the original claim: at `delta = MinInt64`
(whose Go negation wraps to itself), releasing from `current = {0}` with
no free CPUs succeeds — every guard compares against a negative
`-delta`, the removal loop runs zero rounds — and returns an empty
`removeFrom`, so `|remove_from| ≥ -delta` fails on an error-free call. -/
theorem C5_counterexample :
    (ResizeCpus sortedUnsorted soloTa {0} ∅ goMinInt).err = none ∧
    goMinInt < 0 ∧
    CpuSet.list (ResizeCpus sortedUnsorted soloTa {0} ∅ goMinInt).removeFrom = [] ∧
    ¬ ((-goMinInt).toNat ≤
        (ResizeCpus sortedUnsorted soloTa {0} ∅ goMinInt).removeFrom.card) := by
  refine ⟨by decide, by decide, by decide, ?_⟩
  intro h
  have : (ResizeCpus sortedUnsorted soloTa {0} ∅ goMinInt).removeFrom.card = 0 :=
    by decide
  rw [this] at h
  exact absurd h (by decide)

/-- Witness for C5 at a concrete input: growing by one CPU out of a
two-CPU free pool succeeds and returns an `addFrom` pool of size at
least one. -/
theorem C5_size_bound_witness :
    validUnsorted sortedUnsorted ∧
    goMinInt < 1 ∧
    (ResizeCpus sortedUnsorted soloTa ∅ {0, 1} 1).err = none ∧
    ((0 < (1 : ℤ) →
      (1 : ℤ).toNat ≤ (ResizeCpus sortedUnsorted soloTa ∅ {0, 1} 1).addFrom.card) ∧
     ((1 : ℤ) < 0 →
      (-(1 : ℤ)).toNat ≤
        (ResizeCpus sortedUnsorted soloTa ∅ {0, 1} 1).removeFrom.card)) :=
  ⟨validUnsorted_sortedUnsorted, by decide, by decide,
    C5_size_bound sortedUnsorted validUnsorted_sortedUnsorted soloTa ∅ {0, 1} 1
      (by decide) (by decide)⟩

theorem subset_fillLoop (negDelta : ℕ) :
    ∀ (l : List ℕ) (forSure : CpuSet), forSure ⊆ fillLoop negDelta forSure l := by
  intro l
  induction l with
  | nil =>
    intro fs
    simp [fillLoop]
  | cons c rest ih =>
    intro fs
    simp only [fillLoop]
    by_cases h : negDelta ≤ fs.card
    · rw [if_pos h]
    · rw [if_neg h]
      exact (Finset.subset_insert c fs).trans (ih (insert c fs))

/-- Allocator whose options prefer closeness to one device whose cached
topology hint is the CPU set `{1}`. -/
def hintTa : cpuTreeAllocator :=
  ⟨⟨false, false, ["d"], [], false⟩, soloTree, fun _ => [{1}]⟩

/-- C3 counterexample.  First part: with `current = {0}` and
`delta = -1` the claim's threshold position `-delta - 1 = 0` is in range
of the score-sorted CPU list, yet the static-device-hints stage indexes
position `-delta = 1`, one past the end, and panics.  Second part: with
`current = {0, 1}` (CPU 1 scored 1 by the hint set, CPU 0 scored 0) the
claim's threshold is the score at position 0, namely 0, so its
freed-for-sure set `{c | score c < 0}` is empty; but the stage reads its
pivot at position 1, unconditionally frees CPU 0, and returns it even
though the downstream resizer was only offered the maybe set `{1}`. -/
theorem C3_counterexample :
    (((goSortSlice (fun a b =>
        decide (buildHints sortedUnsorted (allCloseCpuSets hintTa {2, 3}) {0} a <
          buildHints sortedUnsorted (allCloseCpuSets hintTa {2, 3}) {0} b))
        (sortedUnsorted {0})).get? ((-(-1 : ℤ)).toNat - 1)).isSome ∧
      (nextCpuResizer sortedUnsorted hintTa
        [.withDevices, .oneAtATime, .maxLocalSet, .now] {0} {2, 3} (-1)).err
        = some .indexPanic) ∧
    ((goSortSlice (fun a b =>
        decide (buildHints sortedUnsorted (allCloseCpuSets hintTa {2, 3}) {0, 1} a <
          buildHints sortedUnsorted (allCloseCpuSets hintTa {2, 3}) {0, 1} b))
        (sortedUnsorted {0, 1})).get? ((-(-1 : ℤ)).toNat - 1) = some 0 ∧
      (∀ c ∈ ({0, 1} : CpuSet),
        ¬ buildHints sortedUnsorted (allCloseCpuSets hintTa {2, 3}) {0, 1} c <
          buildHints sortedUnsorted (allCloseCpuSets hintTa {2, 3}) {0, 1} 0) ∧
      (goSortSlice (fun a b =>
        decide (buildHints sortedUnsorted (allCloseCpuSets hintTa {2, 3}) {0, 1} a <
          buildHints sortedUnsorted (allCloseCpuSets hintTa {2, 3}) {0, 1} b))
        (sortedUnsorted {0, 1})).get? (-(-1 : ℤ)).toNat = some 1 ∧
      0 ∈ (forSureMaybeSplit
        (buildHints sortedUnsorted (allCloseCpuSets hintTa {2, 3}) {0, 1})
        (buildHints sortedUnsorted (allCloseCpuSets hintTa {2, 3}) {0, 1} 1)
        (goSortSlice (fun a b =>
          decide (buildHints sortedUnsorted (allCloseCpuSets hintTa {2, 3}) {0, 1} a <
            buildHints sortedUnsorted (allCloseCpuSets hintTa {2, 3}) {0, 1} b))
          (sortedUnsorted {0, 1}))).1 ∧
      0 ∈ (nextCpuResizer sortedUnsorted hintTa
        [.withDevices, .oneAtATime, .maxLocalSet, .now] {0, 1} {2, 3} (-1)).removeFrom)
    := by decide

/-- C3: in the static-device-hints stage, on a shrink (`delta < 0`) with
a non-empty hint-set list, every CPU of `currentCpus` is scored by
`buildHints` (each hint set of priority group `k` containing the CPU
adds the `uint64` value `1 << (len - 1 - k)` — 0 once the shift reaches
64 — to its score, wrapping modulo `2 ^ 64`), the CPU list is sorted
ascending by score and the threshold is the score of the CPU at
position `-delta` of that ordering (not `-delta - 1`).  The CPUs scored strictly below the
threshold form exactly `{c ∈ current | score c < threshold}` and are
unconditionally placed in the returned freed-for-sure pool; the CPUs
scored exactly the threshold form the maybe set handed downstream; the
first returned set is `freeCpus` unchanged. -/
theorem C3_device_hints_shrink (σ : CpuSet → List ℕ) (hσ : validUnsorted σ)
    (ta : cpuTreeAllocator) (currentCpus freeCpus : CpuSet) (delta : ℤ)
    (score : ℕ → ℕ)
    (hscore : score = buildHints σ (allCloseCpuSets ta freeCpus) currentCpus)
    (L : List ℕ)
    (hL : L = goSortSlice (fun a b => decide (score a < score b)) (σ currentCpus))
    (hall : ¬ (allCloseCpuSets ta freeCpus).length = 0)
    (hmin : goMinInt < delta) (hneg : delta < 0) (pivot : ℕ)
    (hpiv : L.get? (-delta).toNat = some pivot) :
    (forSureMaybeSplit score (score pivot) L).1
        = currentCpus.filter (fun c => score c < score pivot) ∧
    (forSureMaybeSplit score (score pivot) L).2
        = currentCpus.filter (fun c => score c = score pivot) ∧
    (nextCpuResizer σ ta [.withDevices, .oneAtATime, .maxLocalSet, .now]
        currentCpus freeCpus delta).addFrom = freeCpus ∧
    (forSureMaybeSplit score (score pivot) L).1 ⊆
      (nextCpuResizer σ ta [.withDevices, .oneAtATime, .maxLocalSet, .now]
        currentCpus freeCpus delta).removeFrom := by
  subst hscore
  subst hL
  have hsorted := goSortSlice_score_sorted
    (buildHints σ (allCloseCpuSets ta freeCpus) currentCpus) (σ currentCpus)
  have hsplit := forSureMaybeSplit_eq_filter
    (buildHints σ (allCloseCpuSets ta freeCpus) currentCpus)
    (buildHints σ (allCloseCpuSets ta freeCpus) currentCpus pivot) _ hsorted
  have hset : ∀ (p : ℕ → Prop) (hp : DecidablePred p),
      ((goSortSlice (fun a b =>
        decide (buildHints σ (allCloseCpuSets ta freeCpus) currentCpus a <
          buildHints σ (allCloseCpuSets ta freeCpus) currentCpus b))
        (σ currentCpus)).filter (fun c => decide (p c))).toFinset
        = currentCpus.filter p := by
    intro p hp
    ext x
    simp only [List.mem_toFinset, List.mem_filter, mem_goSortSlice,
      Finset.mem_filter, decide_eq_true_eq, hσ.mem]
  refine ⟨?_, ?_, ?_, ?_⟩
  · rw [hsplit]
    exact hset (fun c => buildHints σ (allCloseCpuSets ta freeCpus) currentCpus c <
      buildHints σ (allCloseCpuSets ta freeCpus) currentCpus pivot) _
  · rw [hsplit]
    exact hset (fun c => buildHints σ (allCloseCpuSets ta freeCpus) currentCpus c =
      buildHints σ (allCloseCpuSets ta freeCpus) currentCpus pivot) _
  · rw [nextCpuResizer_withDevices]
    dsimp only
    rw [if_neg hall, if_neg (show ¬ 0 < delta by omega), if_pos hneg,
      show goNeg delta = -delta from by unfold goNeg; rw [if_neg (by omega)],
      if_neg (show ¬ -delta < 0 by omega), hpiv]
  · rw [nextCpuResizer_withDevices]
    dsimp only
    rw [if_neg hall, if_neg (show ¬ 0 < delta by omega), if_pos hneg,
      show goNeg delta = -delta from by unfold goNeg; rw [if_neg (by omega)],
      if_neg (show ¬ -delta < 0 by omega), hpiv]
    dsimp only
    exact subset_fillLoop _ _ _

/-- Witness for C3 at a concrete input: one close-device hint set `{1}`,
`current = {0, 1}`, `free = {2, 3}`, `delta = -1`; the pivot sits at
sorted position 1 and CPU 0 is freed for sure. -/
theorem C3_device_hints_shrink_witness :
    (goSortSlice (fun a b =>
        decide (buildHints sortedUnsorted (allCloseCpuSets hintTa {2, 3}) {0, 1} a <
          buildHints sortedUnsorted (allCloseCpuSets hintTa {2, 3}) {0, 1} b))
        (sortedUnsorted {0, 1})).get? (-(-1 : ℤ)).toNat = some 1 ∧
    ((forSureMaybeSplit
        (buildHints sortedUnsorted (allCloseCpuSets hintTa {2, 3}) {0, 1})
        (buildHints sortedUnsorted (allCloseCpuSets hintTa {2, 3}) {0, 1} 1)
        (goSortSlice (fun a b =>
          decide (buildHints sortedUnsorted (allCloseCpuSets hintTa {2, 3}) {0, 1} a <
            buildHints sortedUnsorted (allCloseCpuSets hintTa {2, 3}) {0, 1} b))
          (sortedUnsorted {0, 1}))).1
        = Finset.filter (fun c =>
            buildHints sortedUnsorted (allCloseCpuSets hintTa {2, 3}) {0, 1} c <
            buildHints sortedUnsorted (allCloseCpuSets hintTa {2, 3}) {0, 1} 1) {0, 1} ∧
     (forSureMaybeSplit
        (buildHints sortedUnsorted (allCloseCpuSets hintTa {2, 3}) {0, 1})
        (buildHints sortedUnsorted (allCloseCpuSets hintTa {2, 3}) {0, 1} 1)
        (goSortSlice (fun a b =>
          decide (buildHints sortedUnsorted (allCloseCpuSets hintTa {2, 3}) {0, 1} a <
            buildHints sortedUnsorted (allCloseCpuSets hintTa {2, 3}) {0, 1} b))
          (sortedUnsorted {0, 1}))).2
        = Finset.filter (fun c =>
            buildHints sortedUnsorted (allCloseCpuSets hintTa {2, 3}) {0, 1} c =
            buildHints sortedUnsorted (allCloseCpuSets hintTa {2, 3}) {0, 1} 1) {0, 1} ∧
     (nextCpuResizer sortedUnsorted hintTa
        [.withDevices, .oneAtATime, .maxLocalSet, .now] {0, 1} {2, 3} (-1)).addFrom
        = {2, 3} ∧
     (forSureMaybeSplit
        (buildHints sortedUnsorted (allCloseCpuSets hintTa {2, 3}) {0, 1})
        (buildHints sortedUnsorted (allCloseCpuSets hintTa {2, 3}) {0, 1} 1)
        (goSortSlice (fun a b =>
          decide (buildHints sortedUnsorted (allCloseCpuSets hintTa {2, 3}) {0, 1} a <
            buildHints sortedUnsorted (allCloseCpuSets hintTa {2, 3}) {0, 1} b))
          (sortedUnsorted {0, 1}))).1 ⊆
      (nextCpuResizer sortedUnsorted hintTa
        [.withDevices, .oneAtATime, .maxLocalSet, .now] {0, 1} {2, 3} (-1)).removeFrom) :=
  ⟨by decide,
   C3_device_hints_shrink sortedUnsorted validUnsorted_sortedUnsorted hintTa
     {0, 1} {2, 3} (-1) _ rfl _ rfl (by decide) (by decide) (by decide) 1
     (by decide)⟩

theorem foldl_bumpHints_count (inc : ℕ) (x : ℕ) :
    ∀ (l : List ℕ) (m : ℕ → ℕ),
      (l.foldl (bumpHints inc) m) x =
        if l.count x = 0 then m x else (m x + inc * l.count x) % 2 ^ 64 := by
  intro l
  induction l with
  | nil => intro m; simp
  | cons a t ih =>
    intro m
    rw [List.foldl_cons, ih]
    by_cases hx : x = a
    · subst hx
      have hcount : (x :: t).count x = t.count x + 1 := by
        simp [List.count_cons]
      rw [hcount]
      simp only [bumpHints, eq_self_iff_true, if_true]
      rw [if_neg (show ¬ t.count x + 1 = 0 by omega)]
      by_cases ht : t.count x = 0
      · rw [if_pos ht, ht]
        norm_num
      · rw [if_neg ht, Nat.mod_add_mod]
        congr 1
        ring
    · have hcount : (a :: t).count x = t.count x := by
        simp [List.count_cons, hx]
      rw [hcount]
      simp only [bumpHints, if_neg hx]

theorem validUnsorted.perm_of_pair {σ₁ σ₂ : CpuSet → List ℕ}
    (h₁ : validUnsorted σ₁) (h₂ : validUnsorted σ₂) (s : CpuSet) :
    (σ₁ s).Perm (σ₂ s) :=
  (h₁ s).trans (h₂ s).symm

theorem buildHints_sigma_indep {σ₁ σ₂ : CpuSet → List ℕ}
    (h₁ : validUnsorted σ₁) (h₂ : validUnsorted σ₂)
    (all : List (List CpuSet)) (currentCpus : CpuSet) :
    buildHints σ₁ all currentCpus = buildHints σ₂ all currentCpus := by
  funext x
  unfold buildHints
  generalize all.length = n
  generalize all.enum = gs
  have hinner : ∀ (inc : ℕ) (cs : List CpuSet) (m₁ m₂ : ℕ → ℕ), m₁ x = m₂ x →
      (cs.foldl (fun m cpus =>
        (σ₁ (cpus ∩ currentCpus)).foldl (bumpHints inc) m) m₁) x =
      (cs.foldl (fun m cpus =>
        (σ₂ (cpus ∩ currentCpus)).foldl (bumpHints inc) m) m₂) x := by
    intro inc cs
    induction cs with
    | nil => intro m₁ m₂ h; exact h
    | cons c t ih =>
      intro m₁ m₂ h
      refine ih _ _ ?_
      dsimp only
      rw [foldl_bumpHints_count, foldl_bumpHints_count, h,
        (validUnsorted.perm_of_pair h₁ h₂ (c ∩ currentCpus)).count_eq]
  have houter : ∀ (gs : List (ℕ × List CpuSet)) (m₁ m₂ : ℕ → ℕ), m₁ x = m₂ x →
      (gs.foldl (fun m kcs => kcs.2.foldl (fun m cpus =>
        (σ₁ (cpus ∩ currentCpus)).foldl (bumpHints (goShl1 (n - 1 - kcs.1))) m) m) m₁) x =
      (gs.foldl (fun m kcs => kcs.2.foldl (fun m cpus =>
        (σ₂ (cpus ∩ currentCpus)).foldl (bumpHints (goShl1 (n - 1 - kcs.1))) m) m) m₂) x := by
    intro gs
    induction gs with
    | nil => intro m₁ m₂ h; exact h
    | cons g t ih =>
      intro m₁ m₂ h
      rw [List.foldl_cons, List.foldl_cons]
      exact ih _ _ (hinner _ g.2 m₁ m₂ h)
  exact houter gs _ _ rfl

theorem validUnsorted.toFinset {σ : CpuSet → List ℕ} (h : validUnsorted σ)
    (s : CpuSet) : (σ s).toFinset = s := by
  ext x
  rw [List.mem_toFinset, h.mem]

theorem fillLoop_eq_union (negDelta : ℕ) :
    ∀ (l : List ℕ) (forSure : CpuSet), (∀ x ∈ l, x ∉ forSure) → l.Nodup →
      forSure.card + l.length ≤ negDelta →
      fillLoop negDelta forSure l = forSure ∪ l.toFinset := by
  intro l
  induction l with
  | nil =>
    intro fs _ _ _
    simp [fillLoop]
  | cons c rest ih =>
    intro fs hdisj hnd hle
    simp only [List.length_cons] at hle
    simp only [fillLoop]
    rw [if_neg (by omega)]
    have hc : c ∉ fs := hdisj c (List.mem_cons_self c rest)
    rw [ih (insert c fs)
      (fun x hx hmem => by
        rcases Finset.mem_insert.mp hmem with hxc | hxfs
        · subst hxc
          exact (List.nodup_cons.mp hnd).1 hx
        · exact hdisj x (List.mem_cons_of_mem c hx) hxfs)
      (List.nodup_cons.mp hnd).2
      (by rw [Finset.card_insert_of_not_mem hc]; omega)]
    ext y
    simp only [Finset.mem_union, Finset.mem_insert, List.mem_toFinset,
      List.mem_cons]
    tauto

theorem goSortSlice_perm {α : Type} (less : α → α → Bool) (xs : List α) :
    (goSortSlice less xs).Perm xs :=
  List.perm_insertionSort _ xs

theorem sorted_score_get_eq (score : ℕ → ℕ) (L₁ L₂ : List ℕ)
    (h₁ : L₁.Pairwise (fun a b => score a ≤ score b))
    (h₂ : L₂.Pairwise (fun a b => score a ≤ score b))
    (hperm : L₁.Perm L₂) (k : ℕ) (p₁ p₂ : ℕ)
    (hg₁ : L₁.get? k = some p₁) (hg₂ : L₂.get? k = some p₂) :
    score p₁ = score p₂ := by
  have hmap : L₁.map score = L₂.map score := by
    have hs₁ : (L₁.map score).Sorted (· ≤ ·) := (List.pairwise_map).mpr h₁
    have hs₂ : (L₂.map score).Sorted (· ≤ ·) := (List.pairwise_map).mpr h₂
    exact List.eq_of_perm_of_sorted (hperm.map score) hs₁ hs₂
  have hg₁' : (L₁.map score).get? k = some (score p₁) := by
    rw [List.get?_map, hg₁]; rfl
  have hg₂' : (L₂.map score).get? k = some (score p₂) := by
    rw [List.get?_map, hg₂]; rfl
  rw [hmap, hg₂'] at hg₁'
  exact (Option.some_inj.mp hg₁').symm

theorem nextCpuResizer_maxLocalSet (σ : CpuSet → List ℕ) (ta : cpuTreeAllocator)
    (rest : List cpuResizer) (currentCpus freeCpus : CpuSet) (delta : ℤ) :
    nextCpuResizer σ ta (.maxLocalSet :: rest) currentCpus freeCpus delta =
      (match (if 0 < delta then
          goSortSlice (sorterAllocate ta.options.topologyBalancing)
            (ToAttributedSlice ta.root currentCpus freeCpus (maxLocalFilter delta))
        else
          goSortSlice (sorterRelease ta.options.topologyBalancing)
            (ToAttributedSlice ta.root currentCpus freeCpus (maxLocalFilter delta))) with
      | [] => ⟨freeCpus, currentCpus, some .notEnoughFreeLocal, [], false⟩
      | best :: _ =>
          nextCpuResizer σ ta rest best.currentCpus best.freeCpus delta) := rfl

theorem det_S4 (σ₁ σ₂ : CpuSet → List ℕ) (ta : cpuTreeAllocator) :
    ∀ (currentCpus freeCpus : CpuSet) (delta : ℤ),
      nextCpuResizer σ₁ ta [.maxLocalSet, .now] currentCpus freeCpus delta =
      nextCpuResizer σ₂ ta [.maxLocalSet, .now] currentCpus freeCpus delta := by
  intro currentCpus freeCpus delta
  rw [nextCpuResizer_maxLocalSet, nextCpuResizer_maxLocalSet]
  cases hs : (if 0 < delta then
      goSortSlice (sorterAllocate ta.options.topologyBalancing)
        (ToAttributedSlice ta.root currentCpus freeCpus (maxLocalFilter delta))
    else
      goSortSlice (sorterRelease ta.options.topologyBalancing)
        (ToAttributedSlice ta.root currentCpus freeCpus (maxLocalFilter delta))) with
  | nil => rfl
  | cons best tl => rfl

theorem det_S3 (σ₁ σ₂ : CpuSet → List ℕ) (ta : cpuTreeAllocator) :
    ∀ (currentCpus freeCpus : CpuSet) (delta : ℤ),
      nextCpuResizer σ₁ ta [.oneAtATime, .maxLocalSet, .now]
        currentCpus freeCpus delta =
      nextCpuResizer σ₂ ta [.oneAtATime, .maxLocalSet, .now]
        currentCpus freeCpus delta := by
  intro currentCpus freeCpus delta
  rw [nextCpuResizer_oneAtATime, nextCpuResizer_oneAtATime]
  simp only [det_S4 σ₁ σ₂ ta]

theorem withDevices_shrink_canonical (σ : CpuSet → List ℕ) (hσ : validUnsorted σ)
    (ta : cpuTreeAllocator) (currentCpus freeCpus : CpuSet) (delta : ℤ)
    (score : ℕ → ℕ)
    (hscore : score = buildHints σ (allCloseCpuSets ta freeCpus) currentCpus)
    (L : List ℕ)
    (hL : L = goSortSlice (fun a b => decide (score a < score b)) (σ currentCpus))
    (hall : ¬ (allCloseCpuSets ta freeCpus).length = 0)
    (hne : delta ≠ goMinInt) (hneg : delta < 0)
    (pivot : ℕ) (hpiv : L.get? (-delta).toNat = some pivot)
    (FS MB : CpuSet)
    (hFS : FS = currentCpus.filter (fun c => score c < score pivot))
    (hMB : MB = currentCpus.filter (fun c => score c = score pivot)) :
    nextCpuResizer σ ta [.withDevices, .oneAtATime, .maxLocalSet, .now]
        currentCpus freeCpus delta =
      ⟨freeCpus,
       FS ∪ (nextCpuResizer σ ta [.oneAtATime, .maxLocalSet, .now]
         MB freeCpus (delta + (FS.card : ℤ))).removeFrom,
       (nextCpuResizer σ ta [.oneAtATime, .maxLocalSet, .now]
         MB freeCpus (delta + (FS.card : ℤ))).err,
       (nextCpuResizer σ ta [.oneAtATime, .maxLocalSet, .now]
         MB freeCpus (delta + (FS.card : ℤ))).calls,
       (nextCpuResizer σ ta [.oneAtATime, .maxLocalSet, .now]
         MB freeCpus (delta + (FS.card : ℤ))).consultedEmpty⟩ := by
  subst hscore
  subst hL
  subst hFS
  subst hMB
  have hsorted := goSortSlice_score_sorted
    (buildHints σ (allCloseCpuSets ta freeCpus) currentCpus) (σ currentCpus)
  have hnodupL := goSortSlice_score_nodup hσ
    (buildHints σ (allCloseCpuSets ta freeCpus) currentCpus) currentCpus
  have hsplit := forSureMaybeSplit_eq_filter
    (buildHints σ (allCloseCpuSets ta freeCpus) currentCpus)
    (buildHints σ (allCloseCpuSets ta freeCpus) currentCpus pivot) _ hsorted
  have hset : ∀ (p : ℕ → Prop) (hp : DecidablePred p),
      ((goSortSlice (fun a b =>
        decide (buildHints σ (allCloseCpuSets ta freeCpus) currentCpus a <
          buildHints σ (allCloseCpuSets ta freeCpus) currentCpus b))
        (σ currentCpus)).filter (fun c => decide (p c))).toFinset
        = currentCpus.filter p := by
    intro p hp
    ext x
    simp only [List.mem_toFinset, List.mem_filter, mem_goSortSlice,
      Finset.mem_filter, decide_eq_true_eq, hσ.mem]
  have h1 : (forSureMaybeSplit
      (buildHints σ (allCloseCpuSets ta freeCpus) currentCpus)
      (buildHints σ (allCloseCpuSets ta freeCpus) currentCpus pivot)
      (goSortSlice (fun a b =>
        decide (buildHints σ (allCloseCpuSets ta freeCpus) currentCpus a <
          buildHints σ (allCloseCpuSets ta freeCpus) currentCpus b))
        (σ currentCpus))).1
      = currentCpus.filter (fun c =>
          buildHints σ (allCloseCpuSets ta freeCpus) currentCpus c <
          buildHints σ (allCloseCpuSets ta freeCpus) currentCpus pivot) := by
    rw [hsplit]
    exact hset _ _
  have h2 : (forSureMaybeSplit
      (buildHints σ (allCloseCpuSets ta freeCpus) currentCpus)
      (buildHints σ (allCloseCpuSets ta freeCpus) currentCpus pivot)
      (goSortSlice (fun a b =>
        decide (buildHints σ (allCloseCpuSets ta freeCpus) currentCpus a <
          buildHints σ (allCloseCpuSets ta freeCpus) currentCpus b))
        (σ currentCpus))).2
      = currentCpus.filter (fun c =>
          buildHints σ (allCloseCpuSets ta freeCpus) currentCpus c =
          buildHints σ (allCloseCpuSets ta freeCpus) currentCpus pivot) := by
    rw [hsplit]
    exact hset _ _
  have hcard1 : (currentCpus.filter (fun c =>
      buildHints σ (allCloseCpuSets ta freeCpus) currentCpus c <
      buildHints σ (allCloseCpuSets ta freeCpus) currentCpus pivot)).card
      ≤ (-delta).toNat := by
    rw [← hset _ _, List.toFinset_card_of_nodup (List.Nodup.filter _ hnodupL)]
    exact sorted_filter_lt_pivot _ _ hsorted _ _ hpiv
  rw [nextCpuResizer_withDevices]
  dsimp only
  rw [if_neg hall, if_neg (show ¬ 0 < delta by omega), if_pos hneg,
    show goNeg delta = -delta from by unfold goNeg; rw [if_neg hne],
    if_neg (show ¬ -delta < 0 by omega), hpiv]
  dsimp only
  rw [h1, h2]
  have hrd : delta + ((currentCpus.filter (fun c =>
      buildHints σ (allCloseCpuSets ta freeCpus) currentCpus c <
      buildHints σ (allCloseCpuSets ta freeCpus) currentCpus pivot)).card : ℤ) ≤ 0 := by
    omega
  have hrem_le := removeLe_S3 σ ta
    (currentCpus.filter (fun c =>
      buildHints σ (allCloseCpuSets ta freeCpus) currentCpus c =
      buildHints σ (allCloseCpuSets ta freeCpus) currentCpus pivot))
    freeCpus _ hrd
  have hrem_le2 := le_trans hrem_le (goNeg_toNat_le _)
  have hsub := (contained_chainAfterDevices σ ta
    (currentCpus.filter (fun c =>
      buildHints σ (allCloseCpuSets ta freeCpus) currentCpus c =
      buildHints σ (allCloseCpuSets ta freeCpus) currentCpus pivot))
    freeCpus
    (delta + ((currentCpus.filter (fun c =>
      buildHints σ (allCloseCpuSets ta freeCpus) currentCpus c <
      buildHints σ (allCloseCpuSets ta freeCpus) currentCpus pivot)).card : ℤ))).2
  rw [fillLoop_eq_union (-delta).toNat _ _
    (fun x hx hmem => by
      have hx2 := hσ.mem.mp hx
      have hx3 := hsub hx2
      rw [Finset.mem_filter] at hmem hx3
      omega)
    (hσ.nodup _)
    (by
      rw [hσ.length _]
      omega),
    hσ.toFinset _]

theorem det_S2 (σ₁ σ₂ : CpuSet → List ℕ) (h₁ : validUnsorted σ₁)
    (h₂ : validUnsorted σ₂) (ta : cpuTreeAllocator) :
    ∀ (currentCpus freeCpus : CpuSet) (delta : ℤ),
      nextCpuResizer σ₁ ta [.withDevices, .oneAtATime, .maxLocalSet, .now]
        currentCpus freeCpus delta =
      nextCpuResizer σ₂ ta [.withDevices, .oneAtATime, .maxLocalSet, .now]
        currentCpus freeCpus delta := by
  intro currentCpus freeCpus delta
  by_cases hall : (allCloseCpuSets ta freeCpus).length = 0
  · rw [nextCpuResizer_withDevices, nextCpuResizer_withDevices]
    dsimp only
    rw [if_pos hall, if_pos hall]
    exact det_S3 σ₁ σ₂ ta currentCpus freeCpus delta
  · by_cases hpos : 0 < delta
    · rw [nextCpuResizer_withDevices, nextCpuResizer_withDevices]
      dsimp only
      rw [if_neg hall, if_neg hall, if_pos hpos, if_pos hpos]
      exact det_S3 σ₁ σ₂ ta currentCpus _ delta
    · by_cases hneg : delta < 0
      · by_cases hgneg : goNeg delta < 0
        · rw [nextCpuResizer_withDevices, nextCpuResizer_withDevices]
          dsimp only
          rw [if_neg hall, if_neg hall, if_neg hpos, if_neg hpos,
            if_pos hneg, if_pos hneg, if_pos hgneg, if_pos hgneg]
        · have hne : delta ≠ goMinInt := fun h => hgneg (by rw [h]; decide)
          have hgn : goNeg delta = -delta := by
            unfold goNeg
            rw [if_neg hne]
          have hb := buildHints_sigma_indep h₁ h₂
            (allCloseCpuSets ta freeCpus) currentCpus
          cases hp₁ : (goSortSlice (fun a b =>
              decide (buildHints σ₂ (allCloseCpuSets ta freeCpus) currentCpus a <
                buildHints σ₂ (allCloseCpuSets ta freeCpus) currentCpus b))
              (σ₁ currentCpus)).get? (-delta).toNat with
          | none =>
            have hlen : (goSortSlice (fun a b =>
                decide (buildHints σ₂ (allCloseCpuSets ta freeCpus) currentCpus a <
                  buildHints σ₂ (allCloseCpuSets ta freeCpus) currentCpus b))
                (σ₁ currentCpus)).length =
                (goSortSlice (fun a b =>
                decide (buildHints σ₂ (allCloseCpuSets ta freeCpus) currentCpus a <
                  buildHints σ₂ (allCloseCpuSets ta freeCpus) currentCpus b))
                (σ₂ currentCpus)).length :=
              ((goSortSlice_perm _ _).trans
                ((validUnsorted.perm_of_pair h₁ h₂ currentCpus).trans
                  (goSortSlice_perm _ _).symm)).length_eq
            have hp₂ : (goSortSlice (fun a b =>
                decide (buildHints σ₂ (allCloseCpuSets ta freeCpus) currentCpus a <
                  buildHints σ₂ (allCloseCpuSets ta freeCpus) currentCpus b))
                (σ₂ currentCpus)).get? (-delta).toNat = none := by
              rw [List.get?_eq_none] at hp₁ ⊢
              omega
            rw [nextCpuResizer_withDevices, nextCpuResizer_withDevices]
            dsimp only
            rw [if_neg hall, if_neg hall, if_neg hpos, if_neg hpos,
              if_pos hneg, if_pos hneg, if_neg hgneg, if_neg hgneg, hb, hgn,
              hp₁, hp₂]
          | some p₁ =>
            have hperm : (goSortSlice (fun a b =>
                decide (buildHints σ₂ (allCloseCpuSets ta freeCpus) currentCpus a <
                  buildHints σ₂ (allCloseCpuSets ta freeCpus) currentCpus b))
                (σ₁ currentCpus)).Perm
                (goSortSlice (fun a b =>
                decide (buildHints σ₂ (allCloseCpuSets ta freeCpus) currentCpus a <
                  buildHints σ₂ (allCloseCpuSets ta freeCpus) currentCpus b))
                (σ₂ currentCpus)) :=
              (goSortSlice_perm _ _).trans
                ((validUnsorted.perm_of_pair h₁ h₂ currentCpus).trans
                  (goSortSlice_perm _ _).symm)
            have hk : (-delta).toNat <
                (goSortSlice (fun a b =>
                decide (buildHints σ₂ (allCloseCpuSets ta freeCpus) currentCpus a <
                  buildHints σ₂ (allCloseCpuSets ta freeCpus) currentCpus b))
                (σ₁ currentCpus)).length := by
              by_contra hk
              rw [List.get?_eq_none.mpr (by omega)] at hp₁
              cases hp₁
            cases hp₂ : (goSortSlice (fun a b =>
                decide (buildHints σ₂ (allCloseCpuSets ta freeCpus) currentCpus a <
                  buildHints σ₂ (allCloseCpuSets ta freeCpus) currentCpus b))
                (σ₂ currentCpus)).get? (-delta).toNat with
            | none =>
              rw [List.get?_eq_none] at hp₂
              have := hperm.length_eq
              omega
            | some p₂ =>
              have hm : buildHints σ₂ (allCloseCpuSets ta freeCpus) currentCpus p₁ =
                  buildHints σ₂ (allCloseCpuSets ta freeCpus) currentCpus p₂ :=
                sorted_score_get_eq _ _ _
                  (goSortSlice_score_sorted _ (σ₁ currentCpus))
                  (goSortSlice_score_sorted _ (σ₂ currentCpus))
                  hperm _ p₁ p₂ hp₁ hp₂
              rw [withDevices_shrink_canonical σ₁ h₁ ta currentCpus freeCpus delta
                  _ hb.symm _ rfl hall hne hneg p₁ hp₁ _ _ rfl rfl,
                withDevices_shrink_canonical σ₂ h₂ ta currentCpus freeCpus delta
                  _ rfl _ rfl hall hne hneg p₂ hp₂ _ _ rfl rfl, hm]
              simp only [det_S3 σ₁ σ₂ ta]
      · rw [nextCpuResizer_withDevices, nextCpuResizer_withDevices]
        dsimp only
        rw [if_neg hall, if_neg hall, if_neg hpos, if_neg hpos,
          if_neg hneg, if_neg hneg]

theorem det_S1 (σ₁ σ₂ : CpuSet → List ℕ) (h₁ : validUnsorted σ₁)
    (h₂ : validUnsorted σ₂) (ta : cpuTreeAllocator) :
    ∀ (currentCpus freeCpus : CpuSet) (delta : ℤ),
      nextCpuResizer σ₁ ta
        [.withDynamicDeviceHints, .withDevices, .oneAtATime, .maxLocalSet, .now]
        currentCpus freeCpus delta =
      nextCpuResizer σ₂ ta
        [.withDynamicDeviceHints, .withDevices, .oneAtATime, .maxLocalSet, .now]
        currentCpus freeCpus delta := by
  intro currentCpus freeCpus delta
  rw [nextCpuResizer_withDynamicDeviceHints, nextCpuResizer_withDynamicDeviceHints]
  simp only [det_S2 σ₁ σ₂ h₁ h₂ ta]

/-- C2 (amended): for a fixed allocator record — a fixed built topology
root, option record and hint cache — and every input triple, the pair
of CPU sets (and the error) returned by `ResizeCpus` does not depend on
the enumeration order the oracle picks for `UnsortedList`: any two
valid oracles give identical results, including on the
static-device-hints shrink path (where ties in the hint scores make the
sort order itself oracle-dependent).  The original claim's wider scope
— any two allocators *built* from the same tree and options — fails:
the split-class child order of the build follows Go map iteration and
reaches full comparator ties, see the counterexample. -/
theorem C2_determinism (σ₁ σ₂ : CpuSet → List ℕ) (h₁ : validUnsorted σ₁)
    (h₂ : validUnsorted σ₂) (ta : cpuTreeAllocator)
    (currentCpus freeCpus : CpuSet) (delta : ℤ) :
    (ResizeCpus σ₁ ta currentCpus freeCpus delta).addFrom
      = (ResizeCpus σ₂ ta currentCpus freeCpus delta).addFrom ∧
    (ResizeCpus σ₁ ta currentCpus freeCpus delta).removeFrom
      = (ResizeCpus σ₂ ta currentCpus freeCpus delta).removeFrom ∧
    (ResizeCpus σ₁ ta currentCpus freeCpus delta).err
      = (ResizeCpus σ₂ ta currentCpus freeCpus delta).err := by
  have hfull : ResizeCpus σ₁ ta currentCpus freeCpus delta
      = ResizeCpus σ₂ ta currentCpus freeCpus delta := by
    unfold ResizeCpus resizersChain
    rw [nextCpuResizer_onlyIfNecessary, nextCpuResizer_onlyIfNecessary]
    simp only [det_S1 σ₁ σ₂ h₁ h₂ ta]
  exact ⟨congrArg resizeResult.addFrom hfull,
    congrArg resizeResult.removeFrom hfull,
    congrArg resizeResult.err hfull⟩

/-- The reversed-order enumeration oracle: a second valid oracle used to
witness oracle-independence. -/
def revUnsorted : CpuSet → List ℕ := fun s => (CpuSet.list s).reverse

theorem validUnsorted_revUnsorted : validUnsorted revUnsorted :=
  fun s => (CpuSet.list s).reverse_perm

/-- Witness for C2 at a concrete input on the static-device-hints shrink
path: the ascending and the reversed CPU enumerations give the same
result sets. -/
theorem C2_determinism_witness :
    (ResizeCpus sortedUnsorted hintTa {0, 1} {2, 3} (-1)).addFrom
      = (ResizeCpus revUnsorted hintTa {0, 1} {2, 3} (-1)).addFrom ∧
    (ResizeCpus sortedUnsorted hintTa {0, 1} {2, 3} (-1)).removeFrom
      = (ResizeCpus revUnsorted hintTa {0, 1} {2, 3} (-1)).removeFrom ∧
    (ResizeCpus sortedUnsorted hintTa {0, 1} {2, 3} (-1)).err
      = (ResizeCpus revUnsorted hintTa {0, 1} {2, 3} (-1)).err :=
  C2_determinism sortedUnsorted revUnsorted validUnsorted_sortedUnsorted
    validUnsorted_revUnsorted hintTa {0, 1} {2, 3} (-1)

/-- C2 counterexample for the original claim: two allocators built by
`NewAllocator` from the same tree (`cacheTree`) and the same options
(spread on physical cores, no devices, empty hint cache), differing
only in the unspecified order Go's map iteration presents the split
classes, return different `addFrom` pools for the same input
`(∅, {0..7}, 2)`: the four deepest masked cache records tie on depth,
every count vector and even the node name, so the stable sort keeps
the build-dependent slice order and the first record differs. -/
theorem C2_counterexample :
    classIdsOf cacheTree.cpus (siblingIndexClassifier cacheTree) = [0, 1] ∧
    ([1, 0] : List ℤ).Perm
      (classIdsOf cacheTree.cpus (siblingIndexClassifier cacheTree)) ∧
    (ResizeCpus sortedUnsorted spreadTa1 ∅ {0, 1, 2, 3, 4, 5, 6, 7} 2).err
      = none ∧
    (ResizeCpus sortedUnsorted spreadTa2 ∅ {0, 1, 2, 3, 4, 5, 6, 7} 2).err
      = none ∧
    CpuSet.list (ResizeCpus sortedUnsorted spreadTa1
      ∅ {0, 1, 2, 3, 4, 5, 6, 7} 2).addFrom = [0, 2] ∧
    CpuSet.list (ResizeCpus sortedUnsorted spreadTa2
      ∅ {0, 1, 2, 3, 4, 5, 6, 7} 2).addFrom = [1, 3] := by
  exact ⟨by decide, by decide, by decide, by decide, by decide, by decide⟩
